import Mathlib

/-!
Verification of the retrieval-and-normalization pipeline of a web-search /
Markdown-cleaning program (source: src/web.rs).

Rust `&str` values are modelled as `List Char` (Lean `Char` = Unicode scalar
value = Rust `char`).  Rust `s.chars().count()` is `List.length`; Rust
`s.len()` (the UTF-8 byte count) is `utf8Len`.  The network stages (HTTP
fetch, the external DuckDuckGo search provider, the scraper HTML parser and
the html2md converter) are external collaborators; the pure computation that
follows them is embedded faithfully, parameterized by their outputs.
-/

set_option maxRecDepth 8000

/-- Rust strings as lists of Unicode scalar values. -/
abbrev Str : Type := List Char

/-- Unicode `White_Space`, as used by Rust `char::is_whitespace`, `str::trim`,
`str::trim_start` and by the regex crate's `\s` class. -/
def rust_is_ws (c : Char) : Bool :=
  c = ' ' || c = '\t' || c = '\n' || c = '\x0b' || c = '\x0c' || c = '\r' ||
  c = '\x85' || c = '\xa0' || c.toNat = 0x1680 ||
  (0x2000 ≤ c.toNat && c.toNat ≤ 0x200a) ||
  c.toNat = 0x2028 || c.toNat = 0x2029 || c.toNat = 0x202f ||
  c.toNat = 0x205f || c.toNat = 0x3000

/-- Rust `str::trim_start`. -/
def trim_start (s : Str) : Str := s.dropWhile rust_is_ws

/-- Drop trailing whitespace (the tail half of Rust `str::trim`). -/
def trim_end (s : Str) : Str := (s.reverse.dropWhile rust_is_ws).reverse

/-- Rust `str::trim`. -/
def rust_trim (s : Str) : Str := trim_end (trim_start s)

/-- Rust `char::len_utf8`: the number of bytes of the character's UTF-8
encoding. -/
def len_utf8 (c : Char) : Nat :=
  if c.toNat < 0x80 then 1
  else if c.toNat < 0x800 then 2
  else if c.toNat < 0x10000 then 3
  else 4

/-- Rust `str::len`: the UTF-8 byte count of a string. -/
def utf8Len (s : Str) : Nat := (s.map len_utf8).sum

/-- Rust `str::char_indices` starting from byte offset `off`. -/
def char_indices_from (off : Nat) : Str → List (Nat × Char)
  | [] => []
  | c :: cs => (off, c) :: char_indices_from (off + len_utf8 c) cs

/-- Rust `str::char_indices`. -/
def char_indices (s : Str) : List (Nat × Char) := char_indices_from 0 s

/-- The `for (i, ch) in s.char_indices()` loop of `truncate_at_char_boundary`
(src/web.rs:421-427): accumulators are `end_byte` and `count`; the loop breaks
once `count >= max_chars`. -/
def trunc_loop : List (Nat × Char) → Nat → Nat → Nat → Nat
  | [], _, end_byte, _ => end_byte
  | (i, ch) :: rest, max_chars, end_byte, count =>
    if max_chars ≤ count then end_byte
    else trunc_loop rest max_chars (i + len_utf8 ch) (count + 1)

/-- Byte-level slicing `&s[..n]` of a UTF-8 string, expressed on the character
list: characters are consumed as long as their whole encoding fits in the
first `n` bytes.  (Rust panics when `n` is not a character boundary; the
boundary theorem below shows the index computed by `truncate_at_char_boundary`
always is one.) -/
def slice_bytes : Str → Nat → Str
  | _, 0 => []
  | [], _ + 1 => []
  | c :: cs, n + 1 =>
    if len_utf8 c ≤ n + 1 then c :: slice_bytes cs (n + 1 - len_utf8 c) else []

/-- src/web.rs:415-429 `truncate_at_char_boundary`. -/
def truncate_at_char_boundary (s : Str) (max_chars : Nat) : Str :=
  if s.length ≤ max_chars then s
  else slice_bytes s (trunc_loop (char_indices s) max_chars 0 0)

/-- The cleaning configuration (src/web.rs:25-38).  `timeout_secs`,
`concurrency` and `max_html_bytes` only drive the (external) fetch stage. -/
structure LlmCleanConfig where
  concurrency : Nat
  timeout_secs : Nat
  require_html_content_type : Bool
  drop_non_success_status : Bool
  max_html_bytes : Nat
  max_md_chars : Nat
  min_md_chars : Nat
  max_link_lines_to_keep : Nat
  link_farm_run_threshold : Nat
  max_line_len : Nat
  max_outline_headings : Nat
deriving DecidableEq

/-- `LlmCleanConfig::default` (src/web.rs:40-56). -/
def LlmCleanConfig.default : LlmCleanConfig :=
  { concurrency := 16
    timeout_secs := 20
    require_html_content_type := true
    drop_non_success_status := true
    max_html_bytes := 2000000
    max_md_chars := 24000
    min_md_chars := 200
    max_link_lines_to_keep := 40
    link_farm_run_threshold := 25
    max_line_len := 2000
    max_outline_headings := 24 }

/-- The truncation marker appended after a hard cap (src/web.rs:250,361). -/
def trunc_marker : Str := "\n\n[...truncated...]\n".toList

/-- The final size cap (src/web.rs:358-362 and 248-251): if the character
count exceeds `max_md_chars`, truncate at a character boundary and append the
truncation marker. -/
def hard_cap (cfg : LlmCleanConfig) (s : Str) : Str :=
  if cfg.max_md_chars < s.length then
    truncate_at_char_boundary s cfg.max_md_chars ++ trunc_marker
  else s

/-- Rust `str::replace("\r\n", "\n")`: a single left-to-right pass replacing
non-overlapping occurrences (the output is not re-scanned). -/
def replace_crlf : Str → Str
  | [] => []
  | [c] => [c]
  | c :: d :: rest =>
    if c = '\r' ∧ d = '\n' then '\n' :: replace_crlf rest
    else c :: replace_crlf (d :: rest)

/-- Rust `str::replace('\0', "")`: removal of NUL characters. -/
def remove_nulls (s : Str) : Str := s.filter (fun c => c ≠ '\x00')

/-- Case-insensitive test for the literal `(data:image/` at the head of the
string — the fixed part of the regex `(?is)\(data:image/[^)]*\)`
(src/web.rs:66). -/
def data_img_head (s : Str) : Bool :=
  decide ((s.take 12).map Char.toLower = "(data:image/".toList)

/-- Everything after the first `)`; `none` when there is none.  `[^)]*\)`
consumes exactly up to and including the first close paren (which may lie on
a later line: `(?s)` makes the class match newlines too). -/
def split_close : Str → Option Str
  | [] => none
  | c :: rest => if c = ')' then some rest else split_close rest

/-- The replacement text for a data-image blob (src/web.rs:305). -/
def img_omitted : Str := "(image omitted)".toList

/-- One fuelled step of `RE_DATA_IMG.replace_all(s, "(image omitted)")`:
leftmost-first scan; at a position where `(data:image/` matches and a closing
paren exists, the whole span is replaced and scanning resumes after it;
otherwise the character is emitted.  `fuel = s.length` always suffices since
every step consumes at least one input character. -/
def dir_go : Nat → Str → Str
  | 0, s => s
  | fuel + 1, s =>
    match s with
    | [] => []
    | c :: rest =>
      if data_img_head s then
        match split_close (s.drop 12) with
        | some rest2 => img_omitted ++ dir_go fuel rest2
        | none => c :: dir_go fuel rest
      else c :: dir_go fuel rest

/-- `RE_DATA_IMG.replace_all(s, "(image omitted)")` (src/web.rs:305). -/
def data_img_replace (s : Str) : Str := dir_go s.length s

/-- Detector matching `dir_go`: does `RE_DATA_IMG` match anywhere? -/
def hdi_go : Nat → Str → Bool
  | 0, _ => false
  | fuel + 1, s =>
    match s with
    | [] => false
    | _ :: rest =>
      if data_img_head s then
        match split_close (s.drop 12) with
        | some _ => true
        | none => hdi_go fuel rest
      else hdi_go fuel rest

/-- `RE_DATA_IMG.is_match(s)`. -/
def has_data_img (s : Str) : Bool := hdi_go s.length s

/-- Split at every `'\n'`; always returns at least one (possibly empty)
segment. -/
def split_nl : Str → List Str
  | [] => [[]]
  | c :: rest =>
    if c = '\n' then [] :: split_nl rest
    else
      match split_nl rest with
      | [] => [[c]]
      | l :: ls => (c :: l) :: ls

/-- Strip one trailing `'\r'` (a `"\r\n"` line terminator). -/
def strip_tr_cr (l : Str) : Str :=
  if l.getLast? = some '\r' then l.dropLast else l

/-- Assemble `str::lines` output from the raw segments and their last
element: every `'\n'`-terminated segment (all but the last) loses one
trailing `'\r'`; a final empty segment (trailing terminator) is dropped,
while a final non-empty segment is kept verbatim (a bare `'\r'` stays). -/
def rlines_assemble (segs : List Str) : Option Str → List Str
  | none => []
  | some last =>
    if last.isEmpty then segs.dropLast.map strip_tr_cr
    else segs.dropLast.map strip_tr_cr ++ [last]

/-- Rust `str::lines`. -/
def rlines (s : Str) : List Str :=
  rlines_assemble (split_nl s) (split_nl s).getLast?

/-- A list-bullet character `[-*+]`. -/
def bullet_char (c : Char) : Bool := c = '-' || c = '*' || c = '+'

/-- `\([^)]+\)\s*$`, second half: after the first `')'` in `s5` (everything
before it is the `[^)]+` body, which must be non-empty), only whitespace may
remain. -/
def lom_paren_step (s5 : Str) : Str → Bool
  | [] => false
  | _ :: s7 =>
    if (s5.takeWhile (fun c2 => c2 ≠ ')')).isEmpty then false
    else s7.all rust_is_ws

/-- `[^)]+\)\s*$` applied to the link target `s5`. -/
def lom_paren_body (s5 : Str) : Bool :=
  lom_paren_step s5 (s5.dropWhile (fun c2 => c2 ≠ ')'))

/-- `\([^)]+\)\s*$`: expect `'('` then the target. -/
def lom_open_step : Str → Bool
  | [] => false
  | e :: s5 => if e = '(' then lom_paren_body s5 else false

/-- After the first `']'` in `s3` (the `[^\]]+` body before it must be
non-empty), expect `\([^)]+\)\s*$`. -/
def lom_rb_step (s3 : Str) : Str → Bool
  | [] => false
  | _ :: s4 =>
    if (s3.takeWhile (fun c2 => c2 ≠ ']')).isEmpty then false
    else lom_open_step s4

/-- `[^\]]+\]\([^)]+\)\s*$` applied to the link text `s3`. -/
def lom_after_open (s3 : Str) : Bool :=
  lom_rb_step s3 (s3.dropWhile (fun c2 => c2 ≠ ']'))

/-- The `\[[^\]]+\]\([^)]+\)\s*$` tail of `RE_LINK_ONLY` (src/web.rs:69-70),
matched from an opening `'['`. -/
def lom_link : Str → Bool
  | [] => false
  | c :: s3 => if c = '[' then lom_after_open s3 else false

/-- `\s+\[...`: at least one whitespace character, then skip the rest of the
whitespace and match the link from its `'['`. -/
def lom_space_step : Str → Bool
  | [] => false
  | c :: s1 => rust_is_ws c && lom_link ((c :: s1).dropWhile rust_is_ws)

/-- `[-*+]\s+...`: the bullet, then the rest. -/
def lom_head_step : Str → Bool
  | [] => false
  | b :: s1 => bullet_char b && lom_space_step s1

/-- `RE_LINK_ONLY.is_match(line)`: `^\s*[-*+]\s+\[[^\]]+\]\([^)]+\)\s*$`. -/
def link_only_match (l : Str) : Bool :=
  lom_head_step (l.dropWhile rust_is_ws)

/-- The `flush_run` closure (src/web.rs:319-328), returning the lines kept
from a pending run. -/
def flush_run (cfg : LlmCleanConfig) (run : List Str) : List Str :=
  if cfg.link_farm_run_threshold ≤ run.length then
    run.take cfg.max_link_lines_to_keep
  else run

/-- The link-farm pruning loop (src/web.rs:330-338): link-only lines
accumulate in `run`; any other line flushes the pending run before being
emitted; a final flush closes the last run. -/
def prune_aux (cfg : LlmCleanConfig) : List Str → List Str → List Str → List Str
  | [], run, out => out ++ flush_run cfg run
  | l :: rest, run, out =>
    if link_only_match l then prune_aux cfg rest (run ++ [l]) out
    else prune_aux cfg rest [] (out ++ flush_run cfg run ++ [l])

/-- Pass 2 of the cleaner as a whole. -/
def prune_link_farms (cfg : LlmCleanConfig) (lines : List Str) : List Str :=
  prune_aux cfg lines [] []

/-- Pass 3 (src/web.rs:340-355) producing the normalized string: blank lines
(whitespace-only) are emitted as a bare newline while at most two are kept
per run; other lines are emitted verbatim with a trailing newline. -/
def collapse_aux : List Str → Nat → Str
  | [], _ => []
  | l :: rest, blank_run =>
    if (rust_trim l).isEmpty then
      (if blank_run + 1 ≤ 2 then '\n' :: collapse_aux rest (blank_run + 1)
       else collapse_aux rest (blank_run + 1))
    else l ++ '\n' :: collapse_aux rest 0

/-- Pass 3 on the level of line lists (a blank line becomes `[]`); proved
below to flatten to `collapse_aux`. -/
def collapse_lines : List Str → Nat → List Str
  | [], _ => []
  | l :: rest, blank_run =>
    if (rust_trim l).isEmpty then
      (if blank_run + 1 ≤ 2 then [] :: collapse_lines rest (blank_run + 1)
       else collapse_lines rest (blank_run + 1))
    else l :: collapse_lines rest 0

/-- src/web.rs:303-365 `clean_markdown_for_llm`: normalize line endings and
NULs, replace data-image blobs, drop over-long lines, prune link farms,
collapse blank-line runs, trim, and cap. -/
def clean_markdown_for_llm (md : Str) (cfg : LlmCleanConfig) : Str :=
  let s := data_img_replace (remove_nulls (replace_crlf md))
  let lines := (rlines s).filter (fun l => l.length ≤ cfg.max_line_len)
  let pruned := prune_aux cfg lines [] []
  let normalized := collapse_aux pruned 0
  hard_cap cfg (rust_trim normalized)

/-- The `cut` loop of `extract_outline` (src/web.rs:392-401): scanning
`char_indices`, each `'#'` increments `seen`; when `seen` reaches
`hash_count` the cut is the byte index just past that hash. -/
def cut_loop : List (Nat × Char) → Nat → Nat → Nat → Nat
  | [], _, _, cut => cut
  | (i, ch) :: rest, target, seen, cut =>
    if ch = '#' then
      (if seen + 1 = target then i + len_utf8 ch
       else cut_loop rest target (seen + 1) cut)
    else cut_loop rest target seen cut

/-- Byte-level `&s[n..]` on the character list; a misaligned index yields
`[]` (Rust would panic; the indices used are proved aligned). -/
def drop_bytes : Str → Nat → Str
  | s, 0 => s
  | [], _ + 1 => []
  | c :: cs, n + 1 =>
    if len_utf8 c ≤ n + 1 then drop_bytes cs (n + 1 - len_utf8 c) else []

/-- The body of `extract_outline`'s line loop, with `out_len` the number of
headings already captured (the loop breaks once it reaches `max_items`). -/
def outline_go (max_items : Nat) : Nat → List Str → List Str
  | _, [] => []
  | out_len, line :: rest =>
    let t := trim_start line
    if t.head? ≠ some '#' then outline_go max_items out_len rest
    else
      let hash_count := (t.takeWhile (fun c => c = '#')).length
      if hash_count = 0 then outline_go max_items out_len rest
      else
        let cut := cut_loop (char_indices t) hash_count 0 0
        let rest_txt := rust_trim (drop_bytes t cut)
        if rest_txt ≠ [] ∧ utf8Len rest_txt ≤ 120 then
          rest_txt ::
            (if max_items ≤ out_len + 1 then [] else outline_go max_items (out_len + 1) rest)
        else outline_go max_items out_len rest

/-- src/web.rs:367-413 `extract_outline`. -/
def extract_outline (md : Str) (max_items : Nat) : List Str :=
  outline_go max_items 0 (rlines md)

/-- What a heading line contributes, per the source's logic (with the byte
cut simplified to a character drop, proved equivalent): used to characterize
`extract_outline` as a `filterMap`/`take`. -/
def heading_of_line (line : Str) : Option Str :=
  let t := trim_start line
  let h := (t.takeWhile (fun c => c = '#')).length
  if h = 0 then none
  else
    let rest := rust_trim (t.drop h)
    if rest ≠ [] ∧ utf8Len rest ≤ 120 then some rest else none

/-- The final page artifact (src/web.rs:15-23 `MdPage`). -/
structure MdPage where
  query : Str
  url : Str
  status : Nat
  title : Option Str
  outline : List Str
  markdown : Str
deriving DecidableEq

/-- A default page (used only to instantiate witnesses). -/
def page0 : MdPage := ⟨[], [], 0, none, [], []⟩

/-- The front-matter and document assembly of `crawl_to_llm_markdown`
(src/web.rs:224-245), given the already-chosen title and outline. -/
def assemble_md (query url : Str) (status : Nat) (title : Option Str)
    (outline : List Str) (md : Str) : Str :=
  "---\n".toList ++
  "query: ".toList ++ query ++ ['\n'] ++
  "url: ".toList ++ url ++ ['\n'] ++
  "status: ".toList ++ (Nat.repr status).toList ++ ['\n'] ++
  (match title with
   | some t => "title: ".toList ++ t ++ ['\n']
   | none => []) ++
  "---\n\n".toList ++
  (if outline.isEmpty then []
   else "## Outline\n".toList ++
     (outline.map (fun h => "- ".toList ++ h ++ ['\n'])).flatten ++ ['\n']) ++
  "## Content\n\n".toList ++ md

/-- The pure tail of src/web.rs:156-261 `crawl_to_llm_markdown`, from the
point where the fetched body has been extracted and converted: `converted_md`
is the html2md output (the converter is an external black box), `status` the
response status, `title_from_search` the job's optional title.  Covers
src/web.rs:212-260: clean, minimum-size filter, outline, title inference,
assembly, final hard cap. -/
def crawl_to_llm_markdown (cfg : LlmCleanConfig) (query url : Str)
    (status : Nat) (title_from_search : Option Str) (converted_md : Str) :
    Option MdPage :=
  let md := clean_markdown_for_llm converted_md cfg
  if md.length < cfg.min_md_chars then none
  else
    let outline := extract_outline md cfg.max_outline_headings
    let inferred_title := outline.head?
    let title := title_from_search.or inferred_title
    let final_md := hard_cap cfg (assemble_md query url status title outline md)
    some ⟨query, url, status, title, outline, final_md⟩

/-- The fixed selector priority list of `extract_main_content_html`
(src/web.rs:267-278).  All ten are valid CSS selectors, so the
`Selector::parse` error branch (src/web.rs:281-284) is dead. -/
def selector_list : List String :=
  ["main", "article", "[role=\"main\"]", "#content", "#main-content",
   "#main", ".content", ".markdown-body", ".rustdoc", "body"]

/-- `format!(r#"<div id="extracted">{inner}</div>"#)` (src/web.rs:289). -/
def wrap_extracted (inner : Str) : Str :=
  "<div id=\"extracted\">".toList ++ inner ++ "</div>".toList

/-- The selector loop of `extract_main_content_html` (src/web.rs:280-292).
`env sel` abstracts `doc.select(sel).next().map(inner_html)` — the first
matching node's inner markup, produced by the external scraper library. -/
def emch_go (env : String → Option Str) : List String → Option Str
  | [] => none
  | sel :: rest =>
    match env sel with
    | some inner =>
      if 200 < utf8Len (rust_trim inner) then some (wrap_extracted inner)
      else emch_go env rest
    | none => emch_go env rest

/-- src/web.rs:264-294 `extract_main_content_html`, over the selection
oracle `env`. -/
def extract_main_content_html (env : String → Option Str) : Option Str :=
  emch_go env selector_list

/-- The caller's fallback (src/web.rs:203): the extracted region, or the full
original HTML unmodified. -/
def extracted_or_fallback (env : String → Option Str) (html : Str) : Str :=
  (extract_main_content_html env).getD html

/-- Specification-side characterization of the extractor: the first selector
(in priority order) whose inner markup has trimmed byte length above 200
wins; its inner markup is wrapped. -/
def emch_spec (env : String → Option Str) : Option Str :=
  ((selector_list.filterMap
      (fun sel => (env sel).bind
        (fun inner => if 200 < utf8Len (rust_trim inner) then some inner else none))).head?).map
    wrap_extracted

/-- One search-provider result (the external `websearch` crate returns
`title: String, url: String`). -/
structure SearchResult where
  title : Str
  url : Str
deriving DecidableEq

/-- A fetch job `(query, url, title)` (src/web.rs:88,111). -/
structure Job where
  query : Str
  url : Str
  title : Option Str
deriving DecidableEq

/-- The title normalization at src/web.rs:106-110: a blank provider title
becomes `None`. -/
def title_opt_of_search (title : Str) : Option Str :=
  if (rust_trim title).isEmpty then none else some title

/-- The inner result loop of the search stage (src/web.rs:103-113): a result
whose URL is already in the dedup set is discarded; otherwise the URL is
inserted and a job emitted. -/
def add_results (q : Str) : List SearchResult → List Str → List Job × List Str
  | [], seen => ([], seen)
  | r :: rs, seen =>
    if r.url ∈ seen then add_results q rs seen
    else
      let p := add_results q rs (r.url :: seen)
      (⟨q, r.url, title_opt_of_search r.title⟩ :: p.1, p.2)

/-- The job-building loop of `search_with_config` (src/web.rs:88-114) over
the provider's per-query result lists, threading the dedup set across
queries. -/
def build_jobs : List (Str × List SearchResult) → List Str → List Job
  | [], _ => []
  | (q, rs) :: rest, seen =>
    let p := add_results q rs seen
    p.1 ++ build_jobs rest p.2

/-- Join a list of lines, each terminated by a newline (the shape in which
pass 3 of the cleaner emits its output). -/
def join_lines (M : List Str) : Str := (M.map (fun l => l ++ ['\n'])).flatten

/-- Intercalate lines with single newlines (the shape of the cleaner's
output after the final trim). -/
def interc : List Str → Str
  | [] => []
  | [l] => l
  | l :: ls => l ++ '\n' :: interc ls

/-- Drop leading empty lines. -/
def drop_blank_front (M : List Str) : List Str :=
  M.dropWhile (fun l => l.isEmpty)

/-- Drop trailing empty lines. -/
def drop_blank_back (M : List Str) : List Str :=
  (M.reverse.dropWhile (fun l => l.isEmpty)).reverse

/-- Trim leading whitespace of the first line. -/
def trim_first_line : List Str → List Str
  | [] => []
  | l :: rest => trim_start l :: rest

/-- Trim trailing whitespace of the last line. -/
def trim_last_line (M : List Str) : List Str :=
  match M.reverse with
  | [] => []
  | l :: rest => (trim_end l :: rest).reverse

/-- The effect of the cleaner's final whole-text trim on the line structure:
trailing and leading blank lines disappear, and the first and last remaining
lines lose their edge whitespace. -/
def edge_process (M : List Str) : List Str :=
  trim_last_line (drop_blank_back (trim_first_line (drop_blank_front M)))

/-- Invariant of pass-3 output: blank lines are literally empty, at most two
in a row (`b` counts the pending run), and the other lines are non-blank. -/
def blank_runs_ok : List Str → Nat → Bool
  | [], _ => true
  | l :: rest, b =>
    if l.isEmpty then decide (b < 2) && blank_runs_ok rest (b + 1)
    else (!(rust_trim l).isEmpty) && blank_runs_ok rest 0

/-- Invariant of the cleaner's intermediate line lists: no embedded newline,
non-empty lines are non-blank, and every line respects the length cap. -/
def good_lines (cfg : LlmCleanConfig) (M : List Str) : Prop :=
  ∀ l ∈ M, ('\n' ∉ l) ∧ (l ≠ [] → rust_trim l ≠ []) ∧
    l.length ≤ cfg.max_line_len

-- ======================================================================
-- Theorems
-- ======================================================================

theorem len_utf8_pos (c : Char) : 1 ≤ len_utf8 c := by
  unfold len_utf8; split <;> try omega
  split <;> try omega
  split <;> omega

theorem utf8Len_cons (c : Char) (s : Str) :
    utf8Len (c :: s) = len_utf8 c + utf8Len s := by
  simp [utf8Len]

theorem utf8Len_nil : utf8Len [] = 0 := rfl

/-- The `end_byte` loop, fully characterized: starting at byte offset `off`
over the tail `l`, with `count < max` and `l ≠ []`, it returns the offset
just past the first `max - count` characters of `l`. -/
theorem trunc_loop_spec (l : Str) :
    ∀ off count max_chars e, count < max_chars → l ≠ [] →
    trunc_loop (char_indices_from off l) max_chars e count =
      off + utf8Len (l.take (max_chars - count)) := by
  induction l with
  | nil => intro _ _ _ _ _ h; exact absurd rfl h
  | cons c cs ih =>
    intro off count max_chars e hlt _
    have hnle : ¬ max_chars ≤ count := Nat.not_le.mpr hlt
    simp only [char_indices_from, trunc_loop, if_neg hnle]
    rcases Nat.lt_or_ge (count + 1) max_chars with h1 | h1
    · cases cs with
      | nil =>
        simp only [trunc_loop]
        have : max_chars - count = (max_chars - count - 1) + 1 := by omega
        rw [this]
        simp [utf8Len_cons, List.take_nil, utf8Len_nil]
      | cons d ds =>
        rw [ih (off + len_utf8 c) (count + 1) max_chars _ h1 (by simp)]
        have : max_chars - count = (max_chars - (count + 1)) + 1 := by omega
        rw [this]
        simp only [List.take_succ_cons, utf8Len_cons]
        omega
    · -- count + 1 = max_chars: next iteration breaks
      have hstop : max_chars - count = 1 := by omega
      rw [hstop]
      cases cs with
      | nil => simp [trunc_loop, utf8Len_cons, utf8Len_nil]
      | cons d ds =>
        simp only [char_indices_from, trunc_loop, if_pos (by omega : max_chars ≤ count + 1)]
        simp [utf8Len_cons, utf8Len_nil]

/-- Slicing the encoding at the byte length of a character prefix recovers
exactly that prefix. -/
theorem slice_bytes_take (s : Str) : ∀ k, slice_bytes s (utf8Len (s.take k)) = s.take k := by
  induction s with
  | nil => intro k; simp [utf8Len_nil, slice_bytes]
  | cons c cs ih =>
    intro k
    cases k with
    | zero => simp [utf8Len_nil, slice_bytes]
    | succ k =>
      simp only [List.take_succ_cons, utf8Len_cons]
      have h1 := len_utf8_pos c
      have hn : len_utf8 c + utf8Len (cs.take k) = (len_utf8 c + utf8Len (cs.take k) - 1) + 1 := by
        omega
      rw [hn]
      simp only [slice_bytes]
      rw [if_pos (by omega)]
      have : len_utf8 c + utf8Len (cs.take k) - 1 + 1 - len_utf8 c = utf8Len (cs.take k) := by
        omega
      rw [this, ih k]

theorem trunc_loop_boundary (s : Str) (n : Nat) :
    trunc_loop (char_indices s) n 0 0 = utf8Len (s.take (min n s.length)) := by
  cases s with
  | nil => cases n <;> simp [char_indices, char_indices_from, trunc_loop, utf8Len_nil]
  | cons c cs =>
    cases n with
    | zero =>
      simp [char_indices, char_indices_from, trunc_loop, utf8Len_nil]
    | succ n =>
      rw [char_indices, trunc_loop_spec (c :: cs) 0 0 (n + 1) 0 (by omega) (by simp)]
      have : min (n + 1) (c :: cs).length ≤ n + 1 := Nat.min_le_left _ _
      rw [Nat.zero_add]
      congr 1
      rw [List.take_eq_take]
      omega

/-- C6: `truncate_at_char_boundary` returns the prefix of exactly
`min(max_chars, length)` whole characters; the byte index it slices at is
always a character boundary (it is the UTF-8 length of a character prefix),
so the result re-decodes cleanly. -/
theorem C6_truncate_char_boundary (s : Str) (n : Nat) :
    truncate_at_char_boundary s n = s.take n ∧
    (truncate_at_char_boundary s n).length = min n s.length ∧
    ∃ k, trunc_loop (char_indices s) n 0 0 = utf8Len (s.take k) := by
  have hb := trunc_loop_boundary s n
  have hmain : truncate_at_char_boundary s n = s.take n := by
    unfold truncate_at_char_boundary
    split
    · rw [List.take_of_length_le (by assumption)]
    · rw [hb]
      have : min n s.length = n := by
        have : ¬ s.length ≤ n := by assumption
        omega
      rw [this, slice_bytes_take]
  refine ⟨hmain, ?_, ⟨min n s.length, hb⟩⟩
  rw [hmain, List.length_take]

-- ----------------------------------------------------------------------
-- C10: truncation is the identity on inputs that fit
-- ----------------------------------------------------------------------

/-- C10: `truncate_at_char_boundary` is the identity on any string whose
character count is at most the cap, and consequently a document within
`max_md_chars` passes through the final hard cap unchanged (no truncation,
no marker). -/
theorem C10_truncate_identity_within_cap (cfg : LlmCleanConfig) (s t : Str)
    (n : Nat) (h1 : s.length ≤ n) (h2 : t.length ≤ cfg.max_md_chars) :
    truncate_at_char_boundary s n = s ∧ hard_cap cfg t = t := by
  constructor
  · unfold truncate_at_char_boundary; rw [if_pos h1]
  · unfold hard_cap; rw [if_neg (by omega)]

theorem C10_witness :
    truncate_at_char_boundary ("abc".toList) 5 = "abc".toList ∧
    hard_cap LlmCleanConfig.default ("abc".toList) = "abc".toList :=
  C10_truncate_identity_within_cap LlmCleanConfig.default ("abc".toList)
    ("abc".toList) 5 (by decide) (by decide)

-- ----------------------------------------------------------------------
-- C8: pages whose cleaned Markdown is below min_md_chars are dropped
-- ----------------------------------------------------------------------

/-- C8: if the cleaned Markdown has fewer characters than `min_md_chars`, no
`Page` is produced for the job: `crawl_to_llm_markdown` returns `none` (an
`Ok(None)` in the source — silently dropped, no error surfaced). -/
theorem C8_short_cleaned_markdown_drops_page (cfg : LlmCleanConfig)
    (q u : Str) (st : Nat) (t : Option Str) (md : Str)
    (h : (clean_markdown_for_llm md cfg).length < cfg.min_md_chars) :
    crawl_to_llm_markdown cfg q u st t md = none := by
  unfold crawl_to_llm_markdown
  simp only [if_pos h]

theorem C8_witness :
    (clean_markdown_for_llm ("short".toList) LlmCleanConfig.default).length <
      LlmCleanConfig.default.min_md_chars ∧
    crawl_to_llm_markdown LlmCleanConfig.default ("q".toList) ("u".toList)
      200 none ("short".toList) = none :=
  ⟨by decide, C8_short_cleaned_markdown_drops_page _ _ _ _ _ _ (by decide)⟩

-- ----------------------------------------------------------------------
-- C3: the content extractor tries selectors in priority order
-- ----------------------------------------------------------------------

theorem emch_go_spec (env : String → Option Str) (L : List String) :
    emch_go env L =
      ((L.filterMap (fun sel => (env sel).bind
        (fun inner =>
          if 200 < utf8Len (rust_trim inner) then some inner
          else none))).head?).map wrap_extracted := by
  induction L with
  | nil => rfl
  | cons sel rest ih =>
    simp only [emch_go, List.filterMap_cons]
    cases h : env sel with
    | none => simpa using ih
    | some inner =>
      simp only [Option.some_bind]
      split
      · simp
      · simpa using ih

/-- C3 (amended): for every selection oracle, the extractor returns, wrapped
in the neutral container, the inner markup of the first selector in the
fixed priority list whose trimmed inner markup exceeds 200 BYTES (the source
compares `inner.trim().len()`, a UTF-8 byte count, not a character count);
when no selector qualifies the caller falls back to the full original HTML
unmodified. -/
theorem C3_extractor_priority_and_fallback (env : String → Option Str)
    (html : Str) :
    extract_main_content_html env = emch_spec env ∧
    extracted_or_fallback env html = (emch_spec env).getD html := by
  have h : extract_main_content_html env = emch_spec env := emch_go_spec env selector_list
  exact ⟨h, by unfold extracted_or_fallback; rw [h]⟩

/-- A selection oracle under which only the selector `"main"` matches, with
inner markup of 150 three-byte characters (450 bytes, 150 characters). -/
def envC3 : String → Option Str :=
  fun sel => if sel = "main" then some (List.replicate 150 'あ') else none

/-- C3 counterexample: the claim keys the 200 cutoff to the CHARACTER count
of the inner markup, but the code compares the trimmed BYTE length.  Inner
markup of 150 three-byte characters is at most 200 characters — per the
claim no extraction should happen and the caller should fall back to the
full HTML — yet the code extracts and wraps it. -/
theorem C3_counterexample :
    extract_main_content_html envC3 =
      some (wrap_extracted (List.replicate 150 'あ')) ∧
    (rust_trim (List.replicate 150 'あ')).length ≤ 200 ∧
    extracted_or_fallback envC3 ("full page html".toList) ≠
      "full page html".toList := by
  refine ⟨by decide, by decide, by decide⟩

-- ----------------------------------------------------------------------
-- C4: outline extraction
-- ----------------------------------------------------------------------

theorem len_utf8_hash : len_utf8 '#' = 1 := by decide

theorem cut_loop_hashes (u : Str) :
    ∀ (H : Str), (∀ c ∈ H, c = '#') → H ≠ [] →
    ∀ off seen target, target = seen + H.length →
    cut_loop (char_indices_from off (H ++ u)) target seen 0 = off + H.length := by
  intro H
  induction H with
  | nil => intro _ h; exact absurd rfl h
  | cons c cs ih =>
    intro hall _ off seen target htarget
    have hc : c = '#' := hall c (by simp)
    subst hc
    simp only [List.cons_append, char_indices_from, cut_loop, if_pos rfl, if_true,
      List.append_eq]
    by_cases hcs : cs = []
    · subst hcs
      have hst : seen + 1 = target := by simp at htarget; omega
      rw [if_pos hst]
      simp [len_utf8_hash]
    · have hlen : cs.length ≠ 0 := fun h => hcs (List.eq_nil_of_length_eq_zero h)
      have hne : ¬ (seen + 1 = target) := by
        simp only [List.length_cons] at htarget; omega
      rw [if_neg hne]
      rw [ih (fun c hc => hall c (by simp [hc])) hcs (off + len_utf8 '#') (seen + 1)
        target (by simp only [List.length_cons] at htarget ⊢; omega)]
      simp only [len_utf8_hash, List.length_cons]
      omega

theorem drop_bytes_hashes (u : Str) :
    ∀ (H : Str), (∀ c ∈ H, c = '#') → drop_bytes (H ++ u) H.length = u := by
  intro H
  induction H with
  | nil => simp [drop_bytes]
  | cons c cs ih =>
    intro hall
    have hc : c = '#' := hall c (by simp)
    subst hc
    simp only [List.cons_append, List.length_cons, drop_bytes, List.append_eq]
    rw [if_pos (by simp [len_utf8_hash])]
    simp only [len_utf8_hash, Nat.add_sub_cancel]
    exact ih (fun c hc => hall c (by simp [hc]))

theorem heading_cut_drop_split (H u : Str) (hall : ∀ c ∈ H, c = '#')
    (hne : H ≠ []) :
    drop_bytes (H ++ u) (cut_loop (char_indices (H ++ u)) H.length 0 0) =
      (H ++ u).drop H.length := by
  rw [char_indices, cut_loop_hashes u H hall hne 0 0 H.length (by omega),
    Nat.zero_add, drop_bytes_hashes u H hall, List.drop_left]

/-- On a heading line, the byte-index `cut` loop followed by the byte slice
is exactly the character-level drop of the leading hashes. -/
theorem heading_cut_drop (t : Str) (h : t.head? = some '#') :
    drop_bytes t (cut_loop (char_indices t) (t.takeWhile (fun c => c = '#')).length 0 0) =
      t.drop (t.takeWhile (fun c => c = '#')).length := by
  have hsplit : t.takeWhile (fun c => c = '#') ++ t.dropWhile (fun c => c = '#') = t :=
    List.takeWhile_append_dropWhile _ _
  have hall : ∀ c ∈ t.takeWhile (fun c => c = '#'), c = '#' := by
    intro c hc
    have := List.mem_takeWhile_imp hc
    simpa using this
  have hne : t.takeWhile (fun c => c = '#') ≠ [] := by
    cases t with
    | nil => simp at h
    | cons a t' =>
      simp only [List.head?_cons, Option.some.injEq] at h
      subst h
      simp [List.takeWhile_cons]
  have key := heading_cut_drop_split (t.takeWhile (fun c => c = '#'))
    (t.dropWhile (fun c => c = '#')) hall hne
  rw [hsplit] at key
  exact key

theorem outline_go_spec (max_items : Nat) :
    ∀ (lines : List Str) (out_len : Nat), out_len < max_items →
    outline_go max_items out_len lines =
      (lines.filterMap heading_of_line).take (max_items - out_len) := by
  intro lines
  induction lines with
  | nil => intro _ _; simp [outline_go]
  | cons line rest ih =>
    intro out_len hlt
    by_cases hhead : (trim_start line).head? = some '#'
    · have hne : (trim_start line).takeWhile (fun c => c = '#') ≠ [] := by
        cases htl : trim_start line with
        | nil => rw [htl] at hhead; simp at hhead
        | cons a t' =>
          rw [htl] at hhead
          simp only [List.head?_cons, Option.some.injEq] at hhead
          subst hhead
          simp [List.takeWhile_cons]
      have hlen : ((trim_start line).takeWhile (fun c => c = '#')).length ≠ 0 := by
        simpa [List.length_eq_zero] using hne
      have hgo : outline_go max_items out_len (line :: rest) =
          (if rust_trim ((trim_start line).drop
              ((trim_start line).takeWhile (fun c => c = '#')).length) ≠ [] ∧
              utf8Len (rust_trim ((trim_start line).drop
                ((trim_start line).takeWhile (fun c => c = '#')).length)) ≤ 120 then
            rust_trim ((trim_start line).drop
              ((trim_start line).takeWhile (fun c => c = '#')).length) ::
              (if max_items ≤ out_len + 1 then []
               else outline_go max_items (out_len + 1) rest)
          else outline_go max_items out_len rest) := by
        simp only [outline_go]
        rw [if_neg (show ¬ (trim_start line).head? ≠ some '#' by simpa using hhead),
          if_neg hlen, heading_cut_drop _ hhead]
      rw [hgo]
      by_cases hkeep :
          rust_trim ((trim_start line).drop
            ((trim_start line).takeWhile (fun c => c = '#')).length) ≠ [] ∧
          utf8Len (rust_trim ((trim_start line).drop
            ((trim_start line).takeWhile (fun c => c = '#')).length)) ≤ 120
      · have hhl : heading_of_line line = some (rust_trim ((trim_start line).drop
            ((trim_start line).takeWhile (fun c => c = '#')).length)) := by
          unfold heading_of_line
          rw [if_neg hlen, if_pos hkeep]
        rw [if_pos hkeep, List.filterMap_cons_some hhl]
        have hstep : max_items - out_len = (max_items - (out_len + 1)) + 1 := by omega
        rw [hstep, List.take_succ_cons]
        by_cases hbreak : max_items ≤ out_len + 1
        · rw [if_pos hbreak]
          have hz : max_items - (out_len + 1) = 0 := by omega
          rw [hz, List.take_zero]
        · rw [if_neg hbreak, ih (out_len + 1) (by omega)]
      · have hhl : heading_of_line line = none := by
          unfold heading_of_line
          rw [if_neg hlen, if_neg hkeep]
        rw [if_neg hkeep, List.filterMap_cons_none hhl, ih out_len hlt]
    · have hnil : (trim_start line).takeWhile (fun c => c = '#') = [] := by
        cases htl : trim_start line with
        | nil => simp
        | cons a t' =>
          rw [htl] at hhead
          simp only [List.head?_cons, Option.some.injEq] at hhead
          simp [List.takeWhile_cons, hhead]
      have hhl : heading_of_line line = none := by
        unfold heading_of_line
        rw [if_pos (by simp [hnil])]
      have hgo : outline_go max_items out_len (line :: rest) =
          outline_go max_items out_len rest := by
        simp only [outline_go]
        rw [if_pos (by simpa using hhead)]
      rw [hgo, List.filterMap_cons_none hhl, ih out_len hlt]

/-- C4 (amended): for every Markdown text and every positive bound,
`extract_outline` keeps a heading line exactly when its trimmed text after
the leading hashes is non-empty and at most 120 BYTES in UTF-8 (the source
compares `rest.len()`, a byte count, not a character count), stops once
`max_items` headings are captured, and returns them in document order — that
is, it equals the `heading_of_line` filter of the lines, cut to `max_items`.
(With `max_items = 0` the source still emits the first qualifying heading,
because the break is checked only after a push; hence the positivity
hypothesis.) -/
theorem C4_outline_characterization (md : Str) (max_items : Nat)
    (h : 1 ≤ max_items) :
    extract_outline md max_items =
      ((rlines md).filterMap heading_of_line).take max_items := by
  unfold extract_outline
  rw [outline_go_spec max_items (rlines md) 0 (by omega), Nat.sub_zero]

theorem C4_witness :
    (1 : Nat) ≤ 24 ∧
    extract_outline ("# Title\n\ntext\n## Sub\n".toList) 24 =
      ((rlines ("# Title\n\ntext\n## Sub\n".toList)).filterMap heading_of_line).take 24 ∧
    extract_outline ("# Title\n\ntext\n## Sub\n".toList) 24 =
      ["Title".toList, "Sub".toList] :=
  ⟨by decide, C4_outline_characterization _ 24 (by decide), by decide⟩

/-- A heading whose text is 61 two-byte characters: 61 characters (≤ 120),
122 UTF-8 bytes (> 120). -/
def mdC4 : Str := "# ".toList ++ List.replicate 61 'é'

/-- C4 counterexample: the claim keeps a heading whose trimmed text is
non-empty and at most 120 CHARACTERS; this heading's text has 61 characters,
yet the code drops it (its byte length 122 exceeds 120), so the outline of
`"# " ++ 'é'*61` is empty. -/
theorem C4_counterexample :
    rust_trim ((trim_start mdC4).drop 1) = List.replicate 61 'é' ∧
    List.replicate 61 'é' ≠ ([] : Str) ∧
    (List.replicate 61 'é').length ≤ 120 ∧
    extract_outline mdC4 5 = [] := by
  refine ⟨by decide, by decide, by decide, by decide⟩

-- ----------------------------------------------------------------------
-- Shared truncation / cap lemmas
-- ----------------------------------------------------------------------

theorem truncate_eq_take (s : Str) (n : Nat) :
    truncate_at_char_boundary s n = s.take n := by
  unfold truncate_at_char_boundary
  split
  · rw [List.take_of_length_le (by assumption)]
  · rw [trunc_loop_boundary s n]
    have hmin : min n s.length = n := by
      have hlen : ¬ s.length ≤ n := by assumption
      omega
    rw [hmin, slice_bytes_take]

theorem hard_cap_length (cfg : LlmCleanConfig) (s : Str) :
    (hard_cap cfg s).length ≤ cfg.max_md_chars + trunc_marker.length := by
  unfold hard_cap
  split
  · rw [truncate_eq_take, List.length_append, List.length_take]
    omega
  · have hle : ¬ cfg.max_md_chars < s.length := by assumption
    omega

-- ----------------------------------------------------------------------
-- C1: the final size of Page.markdown
-- ----------------------------------------------------------------------

def cfgC1 : LlmCleanConfig :=
  { LlmCleanConfig.default with max_md_chars := 10, min_md_chars := 0 }

/-- C1 counterexample: with a 10-character cap (`min_md_chars` lowered so the
page survives), the produced page's markdown has 30 characters — the
20-character truncation marker is appended after cutting to the cap, so
`len(Page.markdown) <= max_md_chars` fails. -/
theorem C1_counterexample :
    cfgC1.max_md_chars = 10 ∧
    ((crawl_to_llm_markdown cfgC1 ("q".toList) ("u".toList) 200 none
      ("hello world hello world".toList)).map (fun p => p.markdown.length)) =
        some 30 := ⟨by decide, by decide⟩

/-- C1 (amended): for every configuration and every page produced by the
crawl pipeline, the character count of `Page.markdown` is at most
`max_md_chars` PLUS the length of the truncation marker (20 characters):
when the assembled document exceeds the cap it is cut to exactly the cap and
the marker `"\n\n[...truncated...]\n"` is appended afterwards. -/
theorem C1_markdown_within_cap_plus_marker (cfg : LlmCleanConfig)
    (q u : Str) (st : Nat) (t : Option Str) (md : Str) (p : MdPage)
    (hp : crawl_to_llm_markdown cfg q u st t md = some p) :
    p.markdown.length ≤ cfg.max_md_chars + trunc_marker.length := by
  simp only [crawl_to_llm_markdown] at hp
  split at hp
  · exact absurd hp (by simp)
  · have hpe := (Option.some.inj hp).symm
    subst hpe
    exact hard_cap_length cfg _

theorem C1_witness :
    ((crawl_to_llm_markdown cfgC1 ("q".toList) ("u".toList) 200 none
        ("hello world hello world".toList)).getD page0).markdown.length ≤
      cfgC1.max_md_chars + trunc_marker.length :=
  C1_markdown_within_cap_plus_marker cfgC1 ("q".toList) ("u".toList) 200 none
    ("hello world hello world".toList) _ (by decide)

-- ----------------------------------------------------------------------
-- C5: link-farm pruning
-- ----------------------------------------------------------------------

theorem flush_run_nil (cfg : LlmCleanConfig) : flush_run cfg [] = [] := by
  unfold flush_run; split <;> simp

theorem prune_aux_out (cfg : LlmCleanConfig) (L : List Str) :
    ∀ (run out : List Str),
    prune_aux cfg L run out = out ++ prune_aux cfg L run [] := by
  induction L with
  | nil => intro run out; simp [prune_aux]
  | cons l rest ih =>
    intro run out
    by_cases h : link_only_match l
    · simp only [prune_aux, if_pos h]
      exact ih (run ++ [l]) out
    · simp only [prune_aux, if_neg h]
      rw [ih [] (out ++ flush_run cfg run ++ [l]),
        ih [] ([] ++ flush_run cfg run ++ [l])]
      simp [List.append_assoc]

theorem prune_aux_absorb (cfg : LlmCleanConfig) :
    ∀ (R : List Str), (∀ l ∈ R, link_only_match l = true) →
    ∀ (L run out : List Str),
    prune_aux cfg (R ++ L) run out = prune_aux cfg L (run ++ R) out := by
  intro R
  induction R with
  | nil => intro _ L run out; simp
  | cons r R' ih =>
    intro hall L run out
    have hr : link_only_match r = true := hall r (by simp)
    simp only [List.cons_append, prune_aux, if_pos hr, List.append_eq]
    rw [ih (fun l hl => hall l (by simp [hl])) L (run ++ [r]) out]
    simp [List.append_assoc]

theorem prune_aux_nonlink (cfg : LlmCleanConfig) (x : Str) (L run out : List Str)
    (hx : link_only_match x = false) :
    prune_aux cfg (x :: L) run out =
      out ++ flush_run cfg run ++ x :: prune_aux cfg L [] [] := by
  simp only [prune_aux, hx, Bool.false_eq_true, if_false]
  rw [prune_aux_out cfg L [] (out ++ flush_run cfg run ++ [x])]
  simp [List.append_assoc]

theorem prune_run_chunk (cfg : LlmCleanConfig) (R post : List Str)
    (hR : ∀ l ∈ R, link_only_match l = true)
    (hpost : ∀ y, post.head? = some y → link_only_match y = false) :
    prune_link_farms cfg (R ++ post) =
      flush_run cfg R ++ prune_link_farms cfg post := by
  unfold prune_link_farms
  rw [prune_aux_absorb cfg R hR post [] []]
  cases post with
  | nil => simp [prune_aux, flush_run_nil]
  | cons y ys =>
    have hy : link_only_match y = false := hpost y rfl
    rw [prune_aux_nonlink cfg y ys ([] ++ R) [] hy,
      prune_aux_nonlink cfg y ys [] [] hy]
    simp [flush_run_nil]

theorem head_dropWhile_false :
    ∀ (l : List Str) (x : Str) (t : List Str),
    l.dropWhile link_only_match = x :: t → link_only_match x = false := by
  intro l
  induction l with
  | nil => intro x t h; simp [List.dropWhile] at h
  | cons a l' ih =>
    intro x t h
    rw [List.dropWhile_cons] at h
    split at h
    · exact ih x t h
    · rename_i hna
      injection h with h1 _
      subst h1
      simpa using hna

theorem prune_nil (cfg : LlmCleanConfig) : prune_link_farms cfg [] = [] := by
  simp [prune_link_farms, prune_aux, flush_run_nil]

theorem prune_append (cfg : LlmCleanConfig) :
    ∀ (n : Nat) (L₁ L₂ : List Str), L₁.length ≤ n →
    (∀ x, L₁.getLast? = some x → link_only_match x = false) →
    prune_link_farms cfg (L₁ ++ L₂) =
      prune_link_farms cfg L₁ ++ prune_link_farms cfg L₂ := by
  intro n
  induction n with
  | zero =>
    intro L₁ L₂ hlen _
    have hnil : L₁ = [] := List.eq_nil_of_length_eq_zero (by omega)
    subst hnil
    simp [prune_nil]
  | succ n ih =>
    intro L₁ L₂ hlen hlast
    rcases List.eq_nil_or_concat L₁ with hnil | ⟨F, y, hFy⟩
    · subst hnil
      simp [prune_nil]
    · have hL1ne : L₁ ≠ [] := by rw [hFy]; simp
      have hsplit : L₁.takeWhile link_only_match ++ L₁.dropWhile link_only_match = L₁ :=
        List.takeWhile_append_dropWhile _ _
      have hallA : ∀ l ∈ L₁.takeWhile link_only_match, link_only_match l = true := by
        intro l hl; exact List.mem_takeWhile_imp hl
      cases hB : L₁.dropWhile link_only_match with
      | nil =>
        -- L₁ is all link-only, yet its last line is not: contradiction
        exfalso
        have hA : L₁.takeWhile link_only_match = L₁ := by
          have h1 := hsplit
          rw [hB, List.append_nil] at h1
          exact h1
        have hymem : y ∈ L₁ := by
          rw [hFy, List.concat_eq_append]
          exact List.mem_concat_self F y
        have hytrue := hallA y (by rw [hA]; exact hymem)
        have hyfalse := hlast y (by
          rw [hFy, List.concat_eq_append]
          exact List.getLast?_concat F)
        rw [hytrue] at hyfalse
        exact Bool.noConfusion hyfalse
      | cons x T =>
        have hx : link_only_match x = false := head_dropWhile_false L₁ x T hB
        have hL1 : L₁ = L₁.takeWhile link_only_match ++ x :: T := by
          conv_lhs => rw [← hsplit]
          rw [hB]
        have expand : ∀ (M : List Str),
            prune_link_farms cfg (L₁.takeWhile link_only_match ++ x :: M) =
              flush_run cfg (L₁.takeWhile link_only_match) ++
                x :: prune_link_farms cfg M := by
          intro M
          unfold prune_link_farms
          rw [prune_aux_absorb cfg _ hallA (x :: M) [] [],
            prune_aux_nonlink cfg x M ([] ++ L₁.takeWhile link_only_match) [] hx]
          simp
        have hlen' : T.length ≤ n := by
          have hc := congrArg List.length hL1
          simp [List.length_append] at hc
          omega
        have hlastT : ∀ z, T.getLast? = some z → link_only_match z = false := by
          intro z hz
          have hTne : T ≠ [] := by
            intro hT; rw [hT] at hz; simp at hz
          apply hlast
          rw [hL1, List.getLast?_append_cons]
          cases T with
          | nil => exact absurd rfl hTne
          | cons a b => rw [List.getLast?_cons_cons]; exact hz
        have hsub : prune_link_farms cfg (T ++ L₂) =
            prune_link_farms cfg T ++ prune_link_farms cfg L₂ := by
          cases T with
          | nil => simp [prune_nil]
          | cons a T' => exact ih (a :: T') L₂ hlen' hlastT
        conv_lhs => rw [hL1]
        conv_rhs => rw [hL1]
        rw [List.append_assoc, List.cons_append, expand (T ++ L₂), hsub, expand T]
        simp [List.append_assoc]

/-- C5: a contiguous maximal run of link-only bullet lines is pruned exactly
when its length reaches `link_farm_run_threshold`, in which case only the
first `max_link_lines_to_keep` lines of the run survive; shorter runs are
kept in full; everything around the run is pruned independently. -/
theorem C5_link_farm_runs (cfg : LlmCleanConfig) (pre R post : List Str)
    (hR : ∀ l ∈ R, link_only_match l = true)
    (hpre : ∀ x, pre.getLast? = some x → link_only_match x = false)
    (hpost : ∀ y, post.head? = some y → link_only_match y = false) :
    prune_link_farms cfg (pre ++ R ++ post) =
      prune_link_farms cfg pre ++ flush_run cfg R ++ prune_link_farms cfg post := by
  rw [List.append_assoc,
    prune_append cfg pre.length pre (R ++ post) (Nat.le_refl _) hpre,
    prune_run_chunk cfg R post hR hpost, List.append_assoc]

def cfgC5 : LlmCleanConfig :=
  { LlmCleanConfig.default with
    link_farm_run_threshold := 25
    max_link_lines_to_keep := 5 }

theorem C5_witness :
    (∀ l ∈ List.replicate 30 ("- [a](b)".toList), link_only_match l = true) ∧
    prune_link_farms cfgC5 ([] ++ List.replicate 30 ("- [a](b)".toList) ++ []) =
      prune_link_farms cfgC5 [] ++
        flush_run cfgC5 (List.replicate 30 ("- [a](b)".toList)) ++
        prune_link_farms cfgC5 [] ∧
    (prune_link_farms cfgC5 (List.replicate 30 ("- [a](b)".toList))).length = 5 ∧
    prune_link_farms cfgC5 (List.replicate 10 ("- [a](b)".toList)) =
      List.replicate 10 ("- [a](b)".toList) :=
  ⟨by decide,
   C5_link_farm_runs cfgC5 [] (List.replicate 30 ("- [a](b)".toList)) []
     (by decide) (fun x h => nomatch h) (fun y h => nomatch h),
   by decide, by decide⟩

-- ----------------------------------------------------------------------
-- C7: URL deduplication across one invocation
-- ----------------------------------------------------------------------

theorem add_results_spec (q : Str) :
    ∀ (rs : List SearchResult) (seen : List Str),
    ((add_results q rs seen).1.map Job.url).Nodup ∧
    (∀ j ∈ (add_results q rs seen).1, j.url ∉ seen) ∧
    (∀ u, u ∈ seen → u ∈ (add_results q rs seen).2) ∧
    (∀ j ∈ (add_results q rs seen).1, j.url ∈ (add_results q rs seen).2) := by
  intro rs
  induction rs with
  | nil => intro seen; simp [add_results]
  | cons r rs' ih =>
    intro seen
    by_cases hmem : r.url ∈ seen
    · simpa [add_results, hmem] using ih seen
    · obtain ⟨h1, h2, h3, h4⟩ := ih (r.url :: seen)
      refine ⟨?_, ?_, ?_, ?_⟩ <;> simp only [add_results, if_neg hmem]
      · simp only [List.map_cons, List.nodup_cons]
        refine ⟨?_, h1⟩
        intro hcontra
        obtain ⟨j, hj, hju⟩ := List.mem_map.mp hcontra
        exact h2 j hj (by rw [hju]; simp)
      · intro j hj
        rcases List.mem_cons.mp hj with rfl | hj'
        · exact hmem
        · intro hcontra
          exact h2 j hj' (by simp [hcontra])
      · intro u hu
        exact h3 u (by simp [hu])
      · intro j hj
        rcases List.mem_cons.mp hj with rfl | hj'
        · exact h3 _ (by simp)
        · exact h4 j hj'

theorem build_jobs_spec :
    ∀ (qrs : List (Str × List SearchResult)) (seen : List Str),
    ((build_jobs qrs seen).map Job.url).Nodup ∧
    (∀ j ∈ build_jobs qrs seen, j.url ∉ seen) := by
  intro qrs
  induction qrs with
  | nil => intro seen; simp [build_jobs]
  | cons p rest ih =>
    obtain ⟨q, rs⟩ := p
    intro seen
    obtain ⟨a1, a2, a3, a4⟩ := add_results_spec q rs seen
    obtain ⟨b1, b2⟩ := ih (add_results q rs seen).2
    constructor
    · simp only [build_jobs, List.map_append]
      rw [List.nodup_append]
      refine ⟨a1, b1, ?_⟩
      intro u hu1 hu2
      obtain ⟨j1, hj1, hju1⟩ := List.mem_map.mp hu1
      obtain ⟨j2, hj2, hju2⟩ := List.mem_map.mp hu2
      have hin : j1.url ∈ (add_results q rs seen).2 := a4 j1 hj1
      have hout : j2.url ∉ (add_results q rs seen).2 := b2 j2 hj2
      rw [hju1] at hin
      rw [hju2] at hout
      exact hout (by rw [← hju1] at hin ⊢; exact hin)
    · intro j hj
      simp only [build_jobs, List.mem_append] at hj
      rcases hj with hj1 | hj2
      · exact a2 j hj1
      · intro hcontra
        exact b2 j hj2 (a3 _ hcontra)

theorem nodup_urls_filterMap (f : Job → Option MdPage)
    (hf : ∀ j p, f j = some p → p.url = j.url) :
    ∀ (js : List Job), ((js.map Job.url).Nodup) →
    (((js.filterMap f).map MdPage.url).Nodup) := by
  intro js
  induction js with
  | nil => intro _; simp
  | cons j rest ih =>
    intro h
    simp only [List.map_cons, List.nodup_cons] at h
    cases hfj : f j with
    | none => rw [List.filterMap_cons_none hfj]; exact ih h.2
    | some p =>
      rw [List.filterMap_cons_some hfj]
      simp only [List.map_cons, List.nodup_cons]
      refine ⟨?_, ih h.2⟩
      rw [hf j p hfj]
      intro hmem
      apply h.1
      obtain ⟨p', hp', hup⟩ := List.mem_map.mp hmem
      obtain ⟨j', hj', hfj'⟩ := List.mem_filterMap.mp hp'
      exact List.mem_map.mpr ⟨j', hj', by rw [← hup, hf j' p' hfj']⟩

/-- C7: over one invocation of the search stage — given the provider's
per-query result lists — no two emitted jobs share a URL (the dedup set is
threaded across all queries, first occurrence winning), and any per-job page
production that preserves the job's URL (as the fetch stage does) therefore
yields pages with pairwise-distinct URLs. -/
theorem C7_urls_unique (qrs : List (Str × List SearchResult))
    (f : Job → Option MdPage) (hf : ∀ j p, f j = some p → p.url = j.url) :
    ((build_jobs qrs []).map Job.url).Nodup ∧
    (((build_jobs qrs []).filterMap f).map MdPage.url).Nodup := by
  obtain ⟨h1, _⟩ := build_jobs_spec qrs []
  exact ⟨h1, nodup_urls_filterMap f hf _ h1⟩

def qrsC7 : List (Str × List SearchResult) :=
  [("q1".toList, [⟨"t".toList, "u1".toList⟩, ⟨"".toList, "u2".toList⟩]),
   ("q2".toList, [⟨"t2".toList, "u1".toList⟩, ⟨"t3".toList, "u3".toList⟩])]

def fC7 : Job → Option MdPage :=
  fun j => some ⟨j.query, j.url, 200, j.title, [], []⟩

theorem C7_witness :
    ((build_jobs qrsC7 []).map Job.url).Nodup ∧
    (((build_jobs qrsC7 []).filterMap fC7).map MdPage.url).Nodup :=
  C7_urls_unique qrsC7 fC7 (fun j p h => by injection h with h2; rw [← h2])

-- ----------------------------------------------------------------------
-- C9: blank provider titles
-- ----------------------------------------------------------------------

theorem outline_go_mem_ne_nil (max_items : Nat) :
    ∀ (lines : List Str) (out_len : Nat) (h : Str),
    h ∈ outline_go max_items out_len lines → h ≠ [] := by
  intro lines
  induction lines with
  | nil => intro _ _ hmem; simp [outline_go] at hmem
  | cons line rest ih =>
    intro out_len hh hmem
    simp only [outline_go] at hmem
    split at hmem
    · exact ih out_len hh hmem
    · split at hmem
      · exact ih out_len hh hmem
      · split at hmem
        · rename_i hkeep
          rcases List.mem_cons.mp hmem with heq | hmem'
          · rw [heq]; exact hkeep.1
          · split at hmem'
            · simp at hmem'
            · exact ih (out_len + 1) hh hmem'
        · exact ih out_len hh hmem

theorem extract_outline_mem_ne_nil (md : Str) (n : Nat) :
    ∀ h ∈ extract_outline md n, h ≠ [] := by
  intro h hmem
  exact outline_go_mem_ne_nil n (rlines md) 0 h hmem

/-- C9 (amended): a blank (empty or whitespace-only) provider title yields a
job title of `None`; the resulting page's title is then the first outline
heading when one exists — and only when the outline is empty does the page
carry no title (and the front-matter title line is omitted).  An empty-string
title never occurs: outline headings are non-empty by construction. -/
theorem C9_blank_title_handling (cfg : LlmCleanConfig) (q u t : Str)
    (st : Nat) (md : Str) (p : MdPage)
    (hblank : rust_trim t = [])
    (hp : crawl_to_llm_markdown cfg q u st (title_opt_of_search t) md = some p) :
    title_opt_of_search t = none ∧
    p.title = (extract_outline (clean_markdown_for_llm md cfg)
      cfg.max_outline_headings).head? ∧
    (∀ s, p.title = some s → s ≠ []) := by
  have ht : title_opt_of_search t = none := by
    unfold title_opt_of_search
    rw [hblank]
    simp
  rw [ht] at hp
  simp only [crawl_to_llm_markdown] at hp
  split at hp
  · exact absurd hp (by simp)
  · have hpe := (Option.some.inj hp).symm
    subst hpe
    refine ⟨ht, by simp [Option.or], ?_⟩
    intro s hs
    simp only [Option.or] at hs
    have hmem : s ∈ extract_outline (clean_markdown_for_llm md cfg)
        cfg.max_outline_headings := by
      cases hh : (extract_outline (clean_markdown_for_llm md cfg)
          cfg.max_outline_headings).head? with
      | none => rw [hh] at hs; exact absurd hs (by simp)
      | some s' =>
        rw [hh] at hs
        have hss : s = s' := by simpa using hs.symm
        subst hss
        exact List.mem_of_mem_head? hh
    exact extract_outline_mem_ne_nil _ _ s hmem

def cfgC9 : LlmCleanConfig := { LlmCleanConfig.default with min_md_chars := 0 }

/-- C9 counterexample: the claim says a whitespace-only provider title makes
the Page "carry no title at all (title is None)"; but the code falls back to
the first outline heading, so a page whose content has a heading does carry a
title (here `some "Hi"`), and the front-matter title line is present. -/
theorem C9_counterexample :
    rust_trim (" ".toList) = [] ∧
    ((crawl_to_llm_markdown cfgC9 ("q".toList) ("u".toList) 200
      (title_opt_of_search (" ".toList)) ("# Hi\nbody".toList)).map
        MdPage.title) = some (some ("Hi".toList)) :=
  ⟨by decide, by decide⟩

theorem C9_witness :
    title_opt_of_search (" ".toList) = none ∧
    ((crawl_to_llm_markdown cfgC9 ("q".toList) ("u".toList) 200
        (title_opt_of_search (" ".toList)) ("# Hi\nbody".toList)).getD page0).title =
      (extract_outline (clean_markdown_for_llm ("# Hi\nbody".toList) cfgC9)
        cfgC9.max_outline_headings).head? ∧
    (∀ s, ((crawl_to_llm_markdown cfgC9 ("q".toList) ("u".toList) 200
        (title_opt_of_search (" ".toList)) ("# Hi\nbody".toList)).getD page0).title =
          some s → s ≠ []) :=
  C9_blank_title_handling cfgC9 ("q".toList) ("u".toList) (" ".toList) 200
    ("# Hi\nbody".toList) _ (by decide) (by decide)

-- ----------------------------------------------------------------------
-- C2: the Markdown cleaner is NOT idempotent in general
-- ----------------------------------------------------------------------

/-- C2 counterexample, at the DEFAULT configuration: for the input
`"x\r\r\r\nb"` the first cleaning pass leaves the line `"x\r"` (Rust `lines`
strips only one `'\r'` before a terminator), so the cleaned text is
`"x\r\nb"`; a second pass rewrites that `"\r\n"` to `"\n"`, producing the
different text `"x\nb"`. -/
theorem C2_counterexample :
    clean_markdown_for_llm ("x\r\r\r\nb".toList) LlmCleanConfig.default =
      "x\r\nb".toList ∧
    clean_markdown_for_llm
      (clean_markdown_for_llm ("x\r\r\r\nb".toList) LlmCleanConfig.default)
      LlmCleanConfig.default ≠
      clean_markdown_for_llm ("x\r\r\r\nb".toList) LlmCleanConfig.default :=
  ⟨by decide, by decide⟩

-- Pre-pass identities on inputs free of the relevant artifacts

theorem replace_crlf_id (s : Str) (h : '\r' ∉ s) : replace_crlf s = s := by
  induction s with
  | nil => rfl
  | cons c rest ih =>
    have hc : c ≠ '\r' := fun hc => h (hc ▸ List.mem_cons_self c rest)
    cases rest with
    | nil => rfl
    | cons d rest' =>
      show replace_crlf (c :: d :: rest') = c :: d :: rest'
      unfold replace_crlf
      rw [if_neg (fun hcd => hc hcd.1)]
      rw [ih (fun hmem => h (List.mem_cons_of_mem c hmem))]

theorem remove_nulls_id (s : Str) (h : '\x00' ∉ s) : remove_nulls s = s := by
  unfold remove_nulls
  rw [List.filter_eq_self]
  intro c hc
  simp only [ne_eq, decide_not, Bool.not_eq_eq_eq_not, Bool.not_true,
    decide_eq_false_iff_not]
  intro hcc
  exact h (hcc ▸ hc)

theorem dir_go_id (fuel : Nat) :
    ∀ (s : Str), hdi_go fuel s = false → dir_go fuel s = s := by
  induction fuel with
  | zero => intro s _; rfl
  | succ fuel ih =>
    intro s hs
    cases s with
    | nil => rfl
    | cons c rest =>
      simp only [hdi_go] at hs
      simp only [dir_go]
      by_cases hh : data_img_head (c :: rest) = true
      · rw [if_pos hh] at hs ⊢
        simp only [List.drop_succ_cons] at hs ⊢
        cases hsc : split_close (rest.drop 11) with
        | some r => rw [hsc] at hs; exact absurd hs (by simp)
        | none => rw [hsc] at hs; exact congrArg (List.cons c) (ih rest hs)
      · rw [if_neg hh] at hs ⊢
        rw [ih rest hs]

theorem data_img_replace_id (s : Str) (h : has_data_img s = false) :
    data_img_replace s = s := dir_go_id s.length s h

-- Whitespace and trimming toolkit

theorem head_dropWhile_not {α : Type} (p : α → Bool) :
    ∀ (l : List α) (x : α) (t : List α),
    l.dropWhile p = x :: t → p x = false := by
  intro l
  induction l with
  | nil => intro x t h; simp [List.dropWhile] at h
  | cons a l' ih =>
    intro x t h
    rw [List.dropWhile_cons] at h
    split at h
    · exact ih x t h
    · rename_i hna
      injection h with h1 _
      subst h1
      simpa using hna

theorem dropWhile_dw_idem {α : Type} (p : α → Bool) (l : List α) :
    (l.dropWhile p).dropWhile p = l.dropWhile p := by
  cases h : l.dropWhile p with
  | nil => rfl
  | cons x t =>
    rw [List.dropWhile_cons, head_dropWhile_not p l x t h]
    simp

theorem trim_start_idem (l : Str) : trim_start (trim_start l) = trim_start l :=
  dropWhile_dw_idem rust_is_ws l

theorem trim_end_idem (l : Str) : trim_end (trim_end l) = trim_end l := by
  unfold trim_end
  rw [List.reverse_reverse, dropWhile_dw_idem]

theorem trim_start_eq_nil_iff (l : Str) :
    trim_start l = [] ↔ ∀ c ∈ l, rust_is_ws c = true := by
  unfold trim_start
  exact List.dropWhile_eq_nil_iff

theorem trim_end_eq_nil_iff (l : Str) :
    trim_end l = [] ↔ ∀ c ∈ l, rust_is_ws c = true := by
  unfold trim_end
  constructor
  · intro h c hc
    have hr : l.reverse.dropWhile rust_is_ws = [] := by
      cases hh : l.reverse.dropWhile rust_is_ws with
      | nil => rfl
      | cons x t => rw [hh] at h; simp at h
    exact List.dropWhile_eq_nil_iff.mp hr c (List.mem_reverse.mpr hc)
  · intro h
    rw [List.dropWhile_eq_nil_iff.mpr (fun c hc => h c (List.mem_reverse.mp hc))]
    rfl

theorem rust_trim_eq_nil_iff (l : Str) :
    rust_trim l = [] ↔ ∀ c ∈ l, rust_is_ws c = true := by
  unfold rust_trim
  rw [trim_end_eq_nil_iff]
  constructor
  · intro h c hc
    by_cases hw : rust_is_ws c = true
    · exact hw
    · exfalso
      -- l has a non-ws char, so trim_start l is nonempty and starts non-ws
      have hne : trim_start l ≠ [] := by
        intro hnil
        exact (by simpa [hw] using (trim_start_eq_nil_iff l).mp hnil c hc)
      cases hh : trim_start l with
      | nil => exact hne hh
      | cons x t =>
        have hx := head_dropWhile_not rust_is_ws l x t hh
        have := h x (by rw [hh]; simp)
        rw [hx] at this
        exact Bool.noConfusion this
  · intro h c hc
    exact h c ((List.dropWhile_sublist rust_is_ws).mem hc)

theorem trim_end_split (l : Str) :
    ∃ w, l = trim_end l ++ w ∧ ∀ c ∈ w, rust_is_ws c = true := by
  refine ⟨(l.reverse.takeWhile rust_is_ws).reverse, ?_, ?_⟩
  · unfold trim_end
    conv_lhs => rw [← List.reverse_reverse l]
    conv_lhs => rw [← List.takeWhile_append_dropWhile rust_is_ws l.reverse]
    rw [List.reverse_append]
  · intro c hc
    exact List.mem_takeWhile_imp (List.mem_reverse.mp hc)

-- Prune fixed-point machinery

theorem prune_run_cons (cfg : LlmCleanConfig) (R : List Str) (x : Str)
    (M : List Str) (hR : ∀ l ∈ R, link_only_match l = true)
    (hx : link_only_match x = false) :
    prune_link_farms cfg (R ++ x :: M) =
      flush_run cfg R ++ x :: prune_link_farms cfg M := by
  unfold prune_link_farms
  rw [prune_aux_absorb cfg R hR (x :: M) [] [],
    prune_aux_nonlink cfg x M ([] ++ R) [] hx]
  simp

theorem prune_all_link (cfg : LlmCleanConfig) (R : List Str)
    (hR : ∀ l ∈ R, link_only_match l = true) :
    prune_link_farms cfg R = flush_run cfg R := by
  have h := prune_run_chunk cfg R [] hR (fun y hy => nomatch hy)
  simpa [prune_nil] using h

theorem flush_run_length_le (cfg : LlmCleanConfig) (R : List Str) :
    (flush_run cfg R).length ≤ R.length := by
  unfold flush_run
  split
  · rw [List.length_take]; omega
  · exact Nat.le_refl _

theorem flush_run_all_link (cfg : LlmCleanConfig) (R : List Str)
    (hR : ∀ l ∈ R, link_only_match l = true) :
    ∀ l ∈ flush_run cfg R, link_only_match l = true := by
  intro l hl
  unfold flush_run at hl
  split at hl
  · exact hR l (List.mem_of_mem_take hl)
  · exact hR l hl

theorem flush_run_idem (cfg : LlmCleanConfig) (R : List Str) :
    flush_run cfg (flush_run cfg R) = flush_run cfg R := by
  by_cases h1 : cfg.link_farm_run_threshold ≤ R.length
  · unfold flush_run
    rw [if_pos h1]
    split
    · rw [List.take_take, Nat.min_self]
    · rfl
  · unfold flush_run
    rw [if_neg h1, if_neg h1]

theorem flush_run_id_of_length (cfg : LlmCleanConfig) (R₁ R₂ : List Str)
    (hlen : R₁.length = R₂.length) (h : flush_run cfg R₁ = R₁) :
    flush_run cfg R₂ = R₂ := by
  unfold flush_run at h ⊢
  by_cases h1 : cfg.link_farm_run_threshold ≤ R₂.length
  · rw [if_pos h1]
    rw [if_pos (by omega)] at h
    have hl := congrArg List.length h
    rw [List.length_take] at hl
    have hk : R₁.length ≤ cfg.max_link_lines_to_keep := by
      have := Nat.min_le_left cfg.max_link_lines_to_keep R₁.length
      omega
    exact List.take_of_length_le (by omega)
  · rw [if_neg h1]

theorem takeWhile_all_of_dropWhile_nil {α : Type} {p : α → Bool} {L : List α}
    (h : L.dropWhile p = []) : ∀ l ∈ L, p l = true := by
  intro l hl
  have hA : L.takeWhile p = L := by
    have hs := List.takeWhile_append_dropWhile p L
    rw [h, List.append_nil] at hs
    exact hs
  exact List.mem_takeWhile_imp (hA ▸ hl)

theorem prune_length_le (cfg : LlmCleanConfig) :
    ∀ (n : Nat) (L : List Str), L.length ≤ n →
    (prune_link_farms cfg L).length ≤ L.length := by
  intro n
  induction n with
  | zero =>
    intro L h
    have : L = [] := List.eq_nil_of_length_eq_zero (by omega)
    subst this
    simp [prune_nil]
  | succ n ih =>
    intro L hlen
    cases hB : L.dropWhile link_only_match with
    | nil =>
      rw [prune_all_link cfg L (takeWhile_all_of_dropWhile_nil hB)]
      exact flush_run_length_le cfg L
    | cons x T =>
      have hx := head_dropWhile_not link_only_match L x T hB
      have hsplit := List.takeWhile_append_dropWhile link_only_match L
      rw [hB] at hsplit
      have hall : ∀ l ∈ L.takeWhile link_only_match, link_only_match l = true :=
        fun l hl => List.mem_takeWhile_imp hl
      conv_lhs => rw [← hsplit]
      conv_rhs => rw [← hsplit]
      rw [prune_run_cons cfg _ x T hall hx]
      have hlenT : T.length ≤ n := by
        have hc := congrArg List.length hsplit
        simp [List.length_append] at hc
        omega
      have h1 := flush_run_length_le cfg (L.takeWhile link_only_match)
      have h2 := ih T hlenT
      simp only [List.length_append, List.length_cons]
      omega

theorem prune_idem (cfg : LlmCleanConfig) :
    ∀ (n : Nat) (L : List Str), L.length ≤ n →
    prune_link_farms cfg (prune_link_farms cfg L) = prune_link_farms cfg L := by
  intro n
  induction n with
  | zero =>
    intro L h
    have : L = [] := List.eq_nil_of_length_eq_zero (by omega)
    subst this
    simp [prune_nil]
  | succ n ih =>
    intro L hlen
    cases hB : L.dropWhile link_only_match with
    | nil =>
      have hall := takeWhile_all_of_dropWhile_nil hB
      rw [prune_all_link cfg L hall,
        prune_all_link cfg _ (flush_run_all_link cfg L hall),
        flush_run_idem]
    | cons x T =>
      have hx := head_dropWhile_not link_only_match L x T hB
      have hsplit := List.takeWhile_append_dropWhile link_only_match L
      rw [hB] at hsplit
      have hall : ∀ l ∈ L.takeWhile link_only_match, link_only_match l = true :=
        fun l hl => List.mem_takeWhile_imp hl
      have hlenT : T.length ≤ n := by
        have hc := congrArg List.length hsplit
        simp [List.length_append] at hc
        omega
      conv_rhs => rw [← hsplit]
      conv_lhs => rw [← hsplit]
      rw [prune_run_cons cfg _ x T hall hx,
        prune_run_cons cfg _ x (prune_link_farms cfg T)
          (flush_run_all_link cfg _ hall) hx,
        flush_run_idem, ih T hlenT]

theorem prune_fixed_inversion (cfg : LlmCleanConfig) (A : List Str) (x : Str)
    (T : List Str) (hA : ∀ l ∈ A, link_only_match l = true)
    (hx : link_only_match x = false)
    (h : prune_link_farms cfg (A ++ x :: T) = A ++ x :: T) :
    flush_run cfg A = A ∧ prune_link_farms cfg T = T := by
  rw [prune_run_cons cfg A x T hA hx] at h
  have hlenA : (flush_run cfg A).length = A.length := by
    have h1 := flush_run_length_le cfg A
    have h2 := prune_length_le cfg T.length T (Nat.le_refl _)
    have hc := congrArg List.length h
    simp only [List.length_append, List.length_cons] at hc
    omega
  obtain ⟨hfa, htail⟩ := List.append_inj h hlenA
  injection htail with _ ht2
  exact ⟨hfa, ht2⟩

theorem all_link_of_map_eq (L₁ L₂ : List Str)
    (hmap : L₁.map link_only_match = L₂.map link_only_match)
    (hall : ∀ l ∈ L₂, link_only_match l = true) :
    ∀ l ∈ L₁, link_only_match l = true := by
  intro l hl
  have hmem : link_only_match l ∈ L₁.map link_only_match :=
    List.mem_map.mpr ⟨l, hl, rfl⟩
  rw [hmap] at hmem
  obtain ⟨l', hl', he⟩ := List.mem_map.mp hmem
  rw [← he, hall l' hl']

theorem prune_fixed_of_same_shape (cfg : LlmCleanConfig) :
    ∀ (n : Nat) (L₁ L₂ : List Str), L₁.length ≤ n →
    L₁.map link_only_match = L₂.map link_only_match →
    prune_link_farms cfg L₁ = L₁ → prune_link_farms cfg L₂ = L₂ := by
  intro n
  induction n with
  | zero =>
    intro L₁ L₂ h hmap _
    have h1 : L₁ = [] := List.eq_nil_of_length_eq_zero (by omega)
    subst h1
    have h2 : L₂ = [] := by
      have := congrArg List.length hmap
      simp at this
      exact List.eq_nil_of_length_eq_zero this.symm
    subst h2
    simp [prune_nil]
  | succ n ih =>
    intro L₁ L₂ hlen hmap hfix
    have hlen12 : L₁.length = L₂.length := by
      have := congrArg List.length hmap
      simpa using this
    cases hB : L₁.dropWhile link_only_match with
    | nil =>
      have hall := takeWhile_all_of_dropWhile_nil hB
      have hall2 : ∀ l ∈ L₂, link_only_match l = true :=
        all_link_of_map_eq L₂ L₁ hmap.symm hall
      rw [prune_all_link cfg L₂ hall2]
      rw [prune_all_link cfg L₁ hall] at hfix
      exact flush_run_id_of_length cfg L₁ L₂ hlen12 hfix
    | cons x T =>
      have hx := head_dropWhile_not link_only_match L₁ x T hB
      have hsplit := List.takeWhile_append_dropWhile link_only_match L₁
      rw [hB] at hsplit
      have hallA : ∀ l ∈ L₁.takeWhile link_only_match, link_only_match l = true :=
        fun l hl => List.mem_takeWhile_imp hl
      set A := L₁.takeWhile link_only_match with hAdef
      -- decompose L₂ at position |A|
      set C := L₂.take A.length with hCdef
      set D := L₂.drop A.length with hDdef
      have hL2 : L₂ = C ++ D := (List.take_append_drop A.length L₂).symm
      have hmapA : C.map link_only_match = A.map link_only_match := by
        rw [hCdef, List.map_take, ← hmap]
        conv_lhs => rw [← hsplit]
        rw [List.map_append, List.take_left' (by rw [List.length_map])]
      have hmapD : D.map link_only_match = (x :: T).map link_only_match := by
        rw [hDdef, List.map_drop, ← hmap]
        conv_lhs => rw [← hsplit]
        rw [List.map_append, List.drop_left' (by rw [List.length_map])]
      have hallC : ∀ l ∈ C, link_only_match l = true :=
        all_link_of_map_eq C A hmapA hallA
      cases hD : D with
      | nil =>
        rw [hD] at hmapD
        simp at hmapD
      | cons x₂ T₂ =>
        rw [hD] at hmapD
        simp only [List.map_cons, List.cons.injEq] at hmapD
        obtain ⟨hx2, hmapT⟩ := hmapD
        rw [hx] at hx2
        have hfix1 : prune_link_farms cfg (A ++ x :: T) = A ++ x :: T := by
          rw [hsplit]; exact hfix
        obtain ⟨hflushA, hpruneT⟩ :=
          prune_fixed_inversion cfg A x T hallA hx hfix1
        have hlenCA : A.length = C.length := by
          have := congrArg List.length hmapA
          simpa using this.symm
        have hlenT : T.length ≤ n := by
          have hc := congrArg List.length hsplit
          simp [List.length_append] at hc
          omega
        rw [hL2, hD]
        rw [prune_run_cons cfg C x₂ T₂ hallC hx2]
        rw [flush_run_id_of_length cfg A C hlenCA hflushA]
        rw [ih T T₂ hlenT hmapT.symm hpruneT]

-- Appending trailing whitespace does not change link-only matching

theorem dropWhile_append_nonnil {α : Type} {p : α → Bool} {y : List α}
    {x : α} {t : List α} (w : List α) (h : y.dropWhile p = x :: t) :
    (y ++ w).dropWhile p = x :: (t ++ w) := by
  rw [List.dropWhile_append, h]
  simp

theorem dropWhile_append_all {α : Type} {p : α → Bool} {y w : List α}
    (hy : y.dropWhile p = []) (hw : ∀ c ∈ w, p c = true) :
    (y ++ w).dropWhile p = [] := by
  rw [List.dropWhile_append, hy]
  simp [List.dropWhile_eq_nil_iff.mpr hw]

theorem takeWhile_append_of_drop_nonnil {α : Type} {p : α → Bool}
    {y : List α} (w : List α) (h : y.dropWhile p ≠ []) :
    (y ++ w).takeWhile p = y.takeWhile p := by
  rw [List.takeWhile_append]
  rw [if_neg]
  intro hcontra
  apply h
  have hsum := congrArg List.length (List.takeWhile_append_dropWhile p y)
  rw [List.length_append] at hsum
  exact List.eq_nil_of_length_eq_zero (by omega)

theorem ws_ne_char (c : Char) (ch : Char) (hc : rust_is_ws c = true)
    (hch : rust_is_ws ch = false) : c ≠ ch := by
  intro he
  rw [he, hch] at hc
  exact Bool.noConfusion hc

theorem lom_paren_ws_append (s5 w : Str)
    (hw : ∀ c ∈ w, rust_is_ws c = true) :
    lom_paren_body (s5 ++ w) = lom_paren_body s5 := by
  have hw_rp : ∀ c ∈ w, (decide (c ≠ ')')) = true := fun c hc => by
    simp [ws_ne_char c ')' (hw c hc) (by decide)]
  unfold lom_paren_body
  cases hdw : s5.dropWhile (fun c2 => c2 ≠ ')') with
  | nil =>
    rw [dropWhile_append_all hdw hw_rp]
    rfl
  | cons f s7 =>
    rw [dropWhile_append_nonnil w hdw]
    simp only [lom_paren_step]
    rw [takeWhile_append_of_drop_nonnil w (by rw [hdw]; simp)]
    split
    · rfl
    · rw [List.all_append, List.all_eq_true.mpr hw, Bool.and_true]

theorem lom_open_ws_append (s4 w : Str)
    (hw : ∀ c ∈ w, rust_is_ws c = true) :
    lom_open_step (s4 ++ w) = lom_open_step s4 := by
  cases s4 with
  | nil =>
    simp only [List.nil_append]
    cases w with
    | nil => rfl
    | cons e w5 =>
      have he : e ≠ '(' := ws_ne_char e '(' (hw e (by simp)) (by decide)
      simp only [lom_open_step]
      rw [if_neg he]
  | cons e s5 =>
    simp only [List.cons_append, lom_open_step]
    by_cases he : e = '('
    · rw [if_pos he, if_pos he]
      exact lom_paren_ws_append s5 w hw
    · rw [if_neg he, if_neg he]

theorem lom_after_open_ws_append (s3 w : Str)
    (hw : ∀ c ∈ w, rust_is_ws c = true) :
    lom_after_open (s3 ++ w) = lom_after_open s3 := by
  have hw_rb : ∀ c ∈ w, (decide (c ≠ ']')) = true := fun c hc => by
    simp [ws_ne_char c ']' (hw c hc) (by decide)]
  unfold lom_after_open
  cases hdw : s3.dropWhile (fun c2 => c2 ≠ ']') with
  | nil =>
    rw [dropWhile_append_all hdw hw_rb]
    rfl
  | cons d s4 =>
    rw [dropWhile_append_nonnil w hdw]
    simp only [lom_rb_step]
    rw [takeWhile_append_of_drop_nonnil w (by rw [hdw]; simp)]
    split
    · rfl
    · exact lom_open_ws_append s4 w hw

theorem lom_link_ws_append (y w : Str)
    (hw : ∀ c ∈ w, rust_is_ws c = true) :
    lom_link (y ++ w) = lom_link y := by
  cases y with
  | nil =>
    simp only [List.nil_append]
    cases w with
    | nil => rfl
    | cons c w' =>
      have hc : c ≠ '[' := ws_ne_char c '[' (hw c (by simp)) (by decide)
      simp only [lom_link]
      rw [if_neg hc]
  | cons c y' =>
    simp only [List.cons_append, lom_link]
    by_cases hc : c = '['
    · rw [if_pos hc, if_pos hc]
      exact lom_after_open_ws_append y' w hw
    · rw [if_neg hc, if_neg hc]

theorem lom_space_ws_append (s1 w : Str)
    (hw : ∀ c ∈ w, rust_is_ws c = true) :
    lom_space_step (s1 ++ w) = lom_space_step s1 := by
  cases s1 with
  | nil =>
    simp only [List.nil_append]
    cases w with
    | nil => rfl
    | cons cw w' =>
      simp only [lom_space_step]
      have hdw : (cw :: w').dropWhile rust_is_ws = [] :=
        List.dropWhile_eq_nil_iff.mpr hw
      rw [hdw]
      simp only [Bool.and_eq_false_imp]
      exact fun _ => rfl
  | cons c s1' =>
    simp only [List.cons_append, lom_space_step]
    rw [← List.cons_append]
    by_cases hs1 : (c :: s1').dropWhile rust_is_ws = []
    · rw [hs1, dropWhile_append_all hs1 hw]
    · cases hz : (c :: s1').dropWhile rust_is_ws with
      | nil => exact absurd hz hs1
      | cons z zt =>
        rw [dropWhile_append_nonnil w hz, ← List.cons_append,
          lom_link_ws_append (z :: zt) w hw]

theorem link_only_ws_append (x w : Str)
    (hw : ∀ c ∈ w, rust_is_ws c = true) :
    link_only_match (x ++ w) = link_only_match x := by
  unfold link_only_match
  by_cases hx0 : x.dropWhile rust_is_ws = []
  · rw [hx0, dropWhile_append_all hx0 hw]
  · cases hbs : x.dropWhile rust_is_ws with
    | nil => exact absurd hbs hx0
    | cons b s1 =>
      rw [dropWhile_append_nonnil w hbs]
      simp only [lom_head_step]
      rw [lom_space_ws_append s1 w hw]

theorem link_trim_start_eq (l : Str) :
    link_only_match (trim_start l) = link_only_match l := by
  unfold link_only_match trim_start
  rw [dropWhile_dw_idem]

theorem link_trim_end_eq (l : Str) :
    link_only_match (trim_end l) = link_only_match l := by
  obtain ⟨w, hsplit, hw⟩ := trim_end_split l
  conv_rhs => rw [hsplit]
  rw [link_only_ws_append (trim_end l) w hw]

theorem link_only_nonblank (l : Str) (h : link_only_match l = true) :
    (rust_trim l).isEmpty = false := by
  unfold link_only_match at h
  cases hts : l.dropWhile rust_is_ws with
  | nil => rw [hts] at h; exact absurd h (by simp [lom_head_step])
  | cons b s1 =>
    rw [hts] at h
    simp only [lom_head_step, Bool.and_eq_true] at h
    have hb : bullet_char b = true := h.1
    have hbws : rust_is_ws b = false := by
      unfold bullet_char at hb
      simp only [Bool.or_eq_true, decide_eq_true_eq] at hb
      rcases hb with (rfl | rfl) | rfl <;> decide
    have hmem : b ∈ l := (List.dropWhile_sublist rust_is_ws).mem
      (by rw [hts]; exact List.mem_cons_self b s1)
    cases hres : (rust_trim l).isEmpty with
    | false => rfl
    | true =>
      exfalso
      have hnil : rust_trim l = [] := by
        cases hrt : rust_trim l with
        | nil => rfl
        | cons a b2 => rw [hrt] at hres; simp at hres
      have := (rust_trim_eq_nil_iff l).mp hnil b hmem
      rw [hbws] at this
      exact Bool.noConfusion this

theorem collapse_lines_nonblank (P : List Str)
    (hP : ∀ l ∈ P, (rust_trim l).isEmpty = false) :
    ∀ b, collapse_lines P b = P := by
  induction P with
  | nil => intro _; rfl
  | cons l rest ih =>
    intro b
    have hl := hP l (by simp)
    simp only [collapse_lines]
    rw [if_neg (by simp [hl])]
    rw [ih (fun l2 hl2 => hP l2 (by simp [hl2])) 0]

theorem collapse_lines_append_nonblank (A : List Str)
    (hA : ∀ l ∈ A, (rust_trim l).isEmpty = false) :
    ∀ (Q : List Str) (b : Nat),
    collapse_lines (A ++ Q) b =
      A ++ collapse_lines Q (if A.isEmpty then b else 0) := by
  induction A with
  | nil => intro Q b; simp
  | cons a A2 ih =>
    intro Q b
    have ha := hA a (by simp)
    simp only [List.cons_append, collapse_lines, List.append_eq]
    rw [if_neg (by simp [ha])]
    rw [ih (fun l hl => hA l (by simp [hl])) Q 0]
    cases A2 with
    | nil => simp
    | cons z zs => simp

theorem collapse_preserves_prune_fixed (cfg : LlmCleanConfig) :
    ∀ (n : Nat) (P : List Str) (b : Nat), P.length ≤ n →
    prune_link_farms cfg P = P →
    prune_link_farms cfg (collapse_lines P b) = collapse_lines P b := by
  intro n
  induction n with
  | zero =>
    intro P b h _
    have hP : P = [] := List.eq_nil_of_length_eq_zero (by omega)
    subst hP
    simpa [collapse_lines] using prune_nil cfg
  | succ n ih =>
    intro P b hlen hfix
    cases hB : P.dropWhile link_only_match with
    | nil =>
      have hall := takeWhile_all_of_dropWhile_nil hB
      have hnb : ∀ l ∈ P, (rust_trim l).isEmpty = false :=
        fun l hl => link_only_nonblank l (hall l hl)
      rw [collapse_lines_nonblank P hnb b]
      exact hfix
    | cons x T =>
      have hx := head_dropWhile_not link_only_match P x T hB
      have hsplit := List.takeWhile_append_dropWhile link_only_match P
      rw [hB] at hsplit
      set A := P.takeWhile link_only_match with hAdef
      have hallA : ∀ l ∈ A, link_only_match l = true :=
        fun l hl => List.mem_takeWhile_imp hl
      have hnbA : ∀ l ∈ A, (rust_trim l).isEmpty = false :=
        fun l hl => link_only_nonblank l (hallA l hl)
      have hfix1 : prune_link_farms cfg (A ++ x :: T) = A ++ x :: T := by
        rw [hsplit]; exact hfix
      obtain ⟨hflushA, hpruneT⟩ :=
        prune_fixed_inversion cfg A x T hallA hx hfix1
      have hlenT : T.length ≤ n := by
        have hc := congrArg List.length hsplit
        simp [List.length_append] at hc
        omega
      conv_lhs => rw [← hsplit]
      conv_rhs => rw [← hsplit]
      rw [collapse_lines_append_nonblank A hnbA (x :: T) b]
      by_cases hxb : (rust_trim x).isEmpty = true
      · by_cases hrun : (if A.isEmpty then b else 0) + 1 ≤ 2
        · have hcoll : collapse_lines (x :: T) (if A.isEmpty then b else 0) =
              [] :: collapse_lines T ((if A.isEmpty then b else 0) + 1) := by
            simp only [collapse_lines]
            rw [if_pos hxb, if_pos hrun]
          rw [hcoll]
          have hnil : link_only_match ([] : Str) = false := by decide
          rw [prune_run_cons cfg A ([] : Str)
            (collapse_lines T ((if A.isEmpty then b else 0) + 1)) hallA hnil]
          rw [hflushA, ih T ((if A.isEmpty then b else 0) + 1) hlenT hpruneT]
        · have hcoll : collapse_lines (x :: T) (if A.isEmpty then b else 0) =
              collapse_lines T ((if A.isEmpty then b else 0) + 1) := by
            simp only [collapse_lines]
            rw [if_pos hxb, if_neg hrun]
          rw [hcoll]
          have hAnil : A = [] := by
            by_contra hAne
            rw [if_neg (by simpa using hAne)] at hrun
            omega
          rw [hAnil, List.nil_append]
          simp only [List.isEmpty_nil, if_true]
          exact ih T (b + 1) hlenT hpruneT
      · have hcoll : collapse_lines (x :: T) (if A.isEmpty then b else 0) =
            x :: collapse_lines T 0 := by
          simp only [collapse_lines]
          rw [if_neg hxb]
        rw [hcoll, prune_run_cons cfg A x (collapse_lines T 0) hallA hx,
          hflushA, ih T 0 hlenT hpruneT]

theorem prune_fixed_cons_nonlink (cfg : LlmCleanConfig) (e : Str)
    (L : List Str) (he : link_only_match e = false)
    (h : prune_link_farms cfg (e :: L) = e :: L) :
    prune_link_farms cfg L = L := by
  have hrc := prune_run_cons cfg [] e L (by intro l hl; simp at hl) he
  rw [flush_run_nil] at hrc
  simp only [List.nil_append] at hrc
  rw [hrc] at h
  exact congrArg List.tail h

theorem prune_fixed_drop_front (cfg : LlmCleanConfig) :
    ∀ (M : List Str), prune_link_farms cfg M = M →
    prune_link_farms cfg (drop_blank_front M) = drop_blank_front M := by
  intro M
  induction M with
  | nil => intro _; simpa [drop_blank_front] using prune_nil cfg
  | cons l M2 ih =>
    intro h
    unfold drop_blank_front
    rw [List.dropWhile_cons]
    split
    · rename_i hemp
      have hl : l = [] := by simpa using hemp
      have hlink : link_only_match l = false := by rw [hl]; decide
      exact ih (prune_fixed_cons_nonlink cfg l M2 hlink h)
    · exact h

theorem prune_fixed_concat_nonlink (cfg : LlmCleanConfig) :
    ∀ (n : Nat) (X : List Str) (e : Str), X.length ≤ n →
    link_only_match e = false →
    prune_link_farms cfg (X ++ [e]) = X ++ [e] →
    prune_link_farms cfg X = X := by
  intro n
  induction n with
  | zero =>
    intro X e h _ _
    have hX : X = [] := List.eq_nil_of_length_eq_zero (by omega)
    subst hX
    exact prune_nil cfg
  | succ n ih =>
    intro X e hlen he h
    cases hB : X.dropWhile link_only_match with
    | nil =>
      have hall := takeWhile_all_of_dropWhile_nil hB
      have h1 := prune_run_cons cfg X e [] hall he
      rw [prune_nil] at h1
      rw [h1] at h
      have hlenX : (flush_run cfg X).length = X.length := by
        have hc := congrArg List.length h
        have hf := flush_run_length_le cfg X
        simp [List.length_append] at hc
        omega
      obtain ⟨hf, _⟩ := List.append_inj h hlenX
      rw [prune_all_link cfg X hall, hf]
    | cons x T =>
      have hx := head_dropWhile_not link_only_match X x T hB
      have hsplit := List.takeWhile_append_dropWhile link_only_match X
      rw [hB] at hsplit
      set A := X.takeWhile link_only_match with hAdef
      have hallA : ∀ l ∈ A, link_only_match l = true :=
        fun l hl => List.mem_takeWhile_imp hl
      have hfix1 : prune_link_farms cfg (A ++ x :: (T ++ [e])) =
          A ++ x :: (T ++ [e]) := by
        have hre : A ++ x :: (T ++ [e]) = (A ++ x :: T) ++ [e] := by simp
        rw [hre, hsplit]
        exact h
      obtain ⟨hflushA, hpT⟩ :=
        prune_fixed_inversion cfg A x (T ++ [e]) hallA hx hfix1
      have hlenT : T.length ≤ n := by
        have hc := congrArg List.length hsplit
        simp [List.length_append] at hc
        omega
      have hpTfix := ih T e hlenT he hpT
      conv_lhs => rw [← hsplit]
      conv_rhs => rw [← hsplit]
      rw [prune_run_cons cfg A x T hallA hx, hflushA, hpTfix]

theorem drop_blank_back_concat_keep (F : List Str) (y : Str)
    (hy : y.isEmpty = false) :
    drop_blank_back (F ++ [y]) = F ++ [y] := by
  unfold drop_blank_back
  rw [List.reverse_append]
  simp only [List.reverse_cons, List.reverse_nil, List.nil_append,
    List.singleton_append]
  rw [List.dropWhile_cons, if_neg (by simp [hy])]
  rw [List.reverse_cons, List.reverse_reverse]

theorem drop_blank_back_concat_blank (F : List Str) :
    drop_blank_back (F ++ [([] : Str)]) = drop_blank_back F := by
  unfold drop_blank_back
  rw [List.reverse_append]
  simp [List.dropWhile_cons]

theorem prune_fixed_drop_back (cfg : LlmCleanConfig) :
    ∀ (n : Nat) (M : List Str), M.length ≤ n →
    prune_link_farms cfg M = M →
    prune_link_farms cfg (drop_blank_back M) = drop_blank_back M := by
  intro n
  induction n with
  | zero =>
    intro M h _
    have hM : M = [] := List.eq_nil_of_length_eq_zero (by omega)
    subst hM
    simpa [drop_blank_back] using prune_nil cfg
  | succ n ih =>
    intro M hlen hfix
    rcases List.eq_nil_or_concat M with rfl | ⟨F, y, rfl⟩
    · simpa [drop_blank_back] using prune_nil cfg
    · simp only [List.concat_eq_append] at hlen hfix ⊢
      cases hy : y.isEmpty with
      | false =>
        rw [drop_blank_back_concat_keep F y hy]
        exact hfix
      | true =>
        have hynil : y = [] := by
          cases y with
          | nil => rfl
          | cons a b => simp at hy
        subst hynil
        rw [drop_blank_back_concat_blank F]
        have hF : prune_link_farms cfg F = F :=
          prune_fixed_concat_nonlink cfg F.length F [] (Nat.le_refl _)
            (by decide) hfix
        have hlenF : F.length ≤ n := by
          rw [List.length_append] at hlen
          simp at hlen
          omega
        exact ih F hlenF hF

theorem map_link_trim_first (M : List Str) :
    (trim_first_line M).map link_only_match = M.map link_only_match := by
  cases M with
  | nil => rfl
  | cons l rest => simp [trim_first_line, link_trim_start_eq]

theorem map_link_trim_last (M : List Str) :
    (trim_last_line M).map link_only_match = M.map link_only_match := by
  unfold trim_last_line
  cases hrev : M.reverse with
  | nil =>
    have hM : M = [] := by
      have := congrArg List.reverse hrev
      rw [List.reverse_reverse] at this
      simpa using this
    rw [hM]
  | cons l rest =>
    have hM : M = rest.reverse ++ [l] := by
      have := congrArg List.reverse hrev
      rw [List.reverse_reverse] at this
      rw [this]
      rw [List.reverse_cons]
    rw [hM]
    show ((trim_end l :: rest).reverse).map link_only_match =
      (rest.reverse ++ [l]).map link_only_match
    rw [List.reverse_cons]
    simp [List.map_append, link_trim_end_eq]

-- Line/newline round trip

theorem split_nl_ne_nil (s : Str) : split_nl s ≠ [] := by
  cases s with
  | nil => simp [split_nl]
  | cons c rest =>
    simp only [split_nl]
    split
    · simp
    · cases h : split_nl rest <;> simp

theorem split_nl_no_nl (l : Str) (h : '\n' ∉ l) : split_nl l = [l] := by
  induction l with
  | nil => rfl
  | cons c rest ih =>
    have hc : c ≠ '\n' := fun hcc => h (hcc ▸ List.mem_cons_self c rest)
    simp only [split_nl]
    rw [if_neg hc, ih (fun hm => h (List.mem_cons_of_mem c hm))]

theorem split_nl_append (l : Str) (h : '\n' ∉ l) (z : Str) :
    split_nl (l ++ '\n' :: z) = l :: split_nl z := by
  induction l with
  | nil => simp [split_nl]
  | cons c rest ih =>
    have hc : c ≠ '\n' := fun hcc => h (hcc ▸ List.mem_cons_self c rest)
    simp only [List.cons_append, split_nl, List.append_eq]
    rw [if_neg hc, ih (fun hm => h (List.mem_cons_of_mem c hm))]

theorem rlines_cons (l : Str) (h : '\n' ∉ l) (z : Str) :
    rlines (l ++ '\n' :: z) = strip_tr_cr l :: rlines z := by
  unfold rlines
  rw [split_nl_append l h z]
  cases hg : (split_nl z).getLast? with
  | none =>
    exfalso
    exact split_nl_ne_nil z (List.getLast?_eq_none_iff.mp hg)
  | some y =>
    have hzne : split_nl z ≠ [] := split_nl_ne_nil z
    have hgl : (l :: split_nl z).getLast? = some y := by
      cases hsz : split_nl z with
      | nil => exact absurd hsz hzne
      | cons a b =>
        rw [List.getLast?_cons_cons]
        rw [hsz] at hg
        exact hg
    rw [hgl]
    simp only [rlines_assemble]
    rw [List.dropLast_cons_of_ne_nil hzne, List.map_cons]
    split <;> simp

theorem rlines_single (l : Str) (h : '\n' ∉ l) (hne : l ≠ []) :
    rlines l = [l] := by
  unfold rlines
  rw [split_nl_no_nl l h]
  rw [show ([l] : List Str).getLast? = some l from rfl]
  simp only [rlines_assemble]
  rw [if_neg (by simpa using hne)]
  rfl

theorem rlines_interc (M : List Str) :
    (∀ l ∈ M, '\n' ∉ l) → (∀ l ∈ M, l.getLast? ≠ some '\r') →
    (∀ x, M.getLast? = some x → x ≠ []) →
    rlines (interc M) = M := by
  induction M with
  | nil => intro _ _ _; rfl
  | cons l M2 ih =>
    intro hnl hcr hlast
    cases M2 with
    | nil =>
      show rlines (interc [l]) = [l]
      have hl : l ≠ [] := hlast l rfl
      exact rlines_single l (hnl l (by simp)) hl
    | cons m ms =>
      have hint : interc (l :: m :: ms) = l ++ '\n' :: interc (m :: ms) := rfl
      rw [hint, rlines_cons l (hnl l (by simp)) (interc (m :: ms))]
      have hstrip : strip_tr_cr l = l := by
        unfold strip_tr_cr
        rw [if_neg (by exact hcr l (by simp))]
      rw [hstrip]
      rw [ih (fun l2 hl2 => hnl l2 (by simp [hl2]))
        (fun l2 hl2 => hcr l2 (by simp [hl2]))
        (fun x hx => hlast x (by rw [List.getLast?_cons_cons]; exact hx))]

-- Flatten, trim and the edge processing

theorem join_lines_cons (l : Str) (M : List Str) :
    join_lines (l :: M) = (l ++ ['\n']) ++ join_lines M := by
  unfold join_lines
  rw [List.map_cons, List.flatten_cons]

theorem join_lines_append (A B : List Str) :
    join_lines (A ++ B) = join_lines A ++ join_lines B := by
  unfold join_lines
  rw [List.map_append, List.flatten_append]

theorem join_lines_eq_interc (L : List Str) (h : L ≠ []) :
    join_lines L = interc L ++ ['\n'] := by
  induction L with
  | nil => exact absurd rfl h
  | cons l L2 ih =>
    cases L2 with
    | nil => simp [join_lines, interc]
    | cons m ms =>
      rw [join_lines_cons, ih (by simp)]
      have : interc (l :: m :: ms) = l ++ '\n' :: interc (m :: ms) := rfl
      rw [this]
      simp

theorem trim_end_ws_suffix (x w : Str) (hw : ∀ c ∈ w, rust_is_ws c = true) :
    trim_end (x ++ w) = trim_end x := by
  unfold trim_end
  rw [List.reverse_append,
    List.dropWhile_append_of_pos (fun c hc => hw c (List.mem_reverse.mp hc))]

theorem trim_end_append_keep (a b : Str)
    (hb : ∃ c ∈ b, rust_is_ws c = false) :
    trim_end (a ++ b) = a ++ trim_end b := by
  unfold trim_end
  rw [List.reverse_append]
  have hbne : b.reverse.dropWhile rust_is_ws ≠ [] := by
    intro hnil
    obtain ⟨c, hc, hcw⟩ := hb
    have := List.dropWhile_eq_nil_iff.mp hnil c (List.mem_reverse.mpr hc)
    rw [hcw] at this
    exact Bool.noConfusion this
  rw [List.dropWhile_append, if_neg (by simpa using hbne)]
  rw [List.reverse_append, List.reverse_reverse]

theorem nonblank_has_non_ws (l : Str) (h : rust_trim l ≠ []) :
    ∃ c ∈ l, rust_is_ws c = false := by
  by_contra hcon
  push_neg at hcon
  apply h
  rw [rust_trim_eq_nil_iff]
  intro c hc
  have := hcon c hc
  cases hw : rust_is_ws c with
  | false => exact absurd hw this
  | true => rfl

theorem trim_start_ne_nil_of_nonblank (l : Str) (h : rust_trim l ≠ []) :
    trim_start l ≠ [] := by
  intro hnil
  apply h
  rw [rust_trim_eq_nil_iff]
  exact (trim_start_eq_nil_iff l).mp hnil

theorem rust_trim_trim_start (l : Str) :
    rust_trim (trim_start l) = rust_trim l := by
  unfold rust_trim
  rw [trim_start_idem]

theorem trim_front_join (M : List Str)
    (hinv : ∀ l ∈ M, l ≠ [] → rust_trim l ≠ []) :
    trim_start (join_lines M) =
      join_lines (trim_first_line (drop_blank_front M)) := by
  induction M with
  | nil => rfl
  | cons l M2 ih =>
    by_cases hl : l = []
    · subst hl
      rw [join_lines_cons]
      simp only [List.nil_append, List.singleton_append]
      have h1 : trim_start ('\n' :: join_lines M2) = trim_start (join_lines M2) := by
        unfold trim_start
        rw [List.dropWhile_cons, if_pos (by decide)]
      rw [h1, ih (fun l2 hl2 => hinv l2 (by simp [hl2]))]
      have h2 : drop_blank_front (([] : Str) :: M2) = drop_blank_front M2 := by
        unfold drop_blank_front
        rw [List.dropWhile_cons, if_pos (by simp)]
      rw [h2]
    · have hnb : rust_trim l ≠ [] := hinv l (by simp) hl
      have hts : trim_start l ≠ [] := trim_start_ne_nil_of_nonblank l hnb
      rw [join_lines_cons]
      have hre : (l ++ ['\n']) ++ join_lines M2 = l ++ ('\n' :: join_lines M2) := by
        simp
      rw [hre]
      have h1 : trim_start (l ++ ('\n' :: join_lines M2)) =
          trim_start l ++ ('\n' :: join_lines M2) := by
        unfold trim_start
        rw [List.dropWhile_append, if_neg (by simpa [trim_start] using hts)]
      rw [h1]
      have h2 : drop_blank_front (l :: M2) = l :: M2 := by
        unfold drop_blank_front
        rw [List.dropWhile_cons, if_neg (by simpa using hl)]
      rw [h2]
      show trim_start l ++ ('\n' :: join_lines M2) =
        join_lines (trim_start l :: M2)
      rw [join_lines_cons]
      simp

theorem trim_last_line_concat (N : List Str) (z : Str) :
    trim_last_line (N ++ [z]) = N ++ [trim_end z] := by
  unfold trim_last_line
  rw [List.reverse_append]
  simp only [List.reverse_cons, List.reverse_nil, List.nil_append,
    List.singleton_append]
  rw [List.reverse_reverse]

theorem interc_concat (A : List Str) (x : Str) (h : A ≠ []) :
    interc (A ++ [x]) = interc A ++ '\n' :: x := by
  induction A with
  | nil => exact absurd rfl h
  | cons a A2 ih =>
    cases A2 with
    | nil => rfl
    | cons b bs =>
      have h1 : interc ((a :: b :: bs) ++ [x]) =
          a ++ '\n' :: interc ((b :: bs) ++ [x]) := rfl
      have h2 : interc (a :: b :: bs) = a ++ '\n' :: interc (b :: bs) := rfl
      rw [h1, h2, ih (by simp)]
      simp

theorem trim_back_join (N : List Str)
    (hinv : ∀ l ∈ N, l ≠ [] → rust_trim l ≠ []) :
    trim_end (join_lines N) =
      interc (trim_last_line (drop_blank_back N)) := by
  induction N using List.reverseRecOn with
  | nil => rfl
  | append_singleton N2 z ih =>
    by_cases hz : z = []
    · subst hz
      rw [join_lines_append]
      have h1 : join_lines [([] : Str)] = ['\n'] := rfl
      rw [h1, trim_end_ws_suffix (join_lines N2) ['\n'] (by intro c hc; simp at hc; rw [hc]; rfl)]
      rw [drop_blank_back_concat_blank N2]
      exact ih (fun l hl hn => hinv l (by simp [hl]) hn)
    · have hnb : rust_trim z ≠ [] := hinv z (by simp) hz
      obtain ⟨c, hc, hcw⟩ := nonblank_has_non_ws z hnb
      rw [join_lines_append]
      have h1 : join_lines [z] = z ++ ['\n'] := by
        unfold join_lines
        simp
      rw [h1]
      have h2 : trim_end (join_lines N2 ++ (z ++ ['\n'])) =
          join_lines N2 ++ trim_end (z ++ ['\n']) :=
        trim_end_append_keep _ _ ⟨c, by simp [hc], hcw⟩
      rw [h2, trim_end_ws_suffix z ['\n'] (by intro c2 hc2; simp at hc2; rw [hc2]; rfl)]
      rw [drop_blank_back_concat_keep N2 z (by simpa using hz),
        trim_last_line_concat N2 z]
      cases hN2 : N2 with
      | nil => rfl
      | cons a as =>
        rw [← hN2]
        have hN2ne : N2 ≠ [] := by rw [hN2]; simp
        rw [interc_concat N2 (trim_end z) hN2ne,
          join_lines_eq_interc N2 hN2ne]
        simp

theorem rust_trim_join (M : List Str)
    (hinv : ∀ l ∈ M, l ≠ [] → rust_trim l ≠ []) :
    rust_trim (join_lines M) = interc (edge_process M) := by
  unfold rust_trim edge_process
  rw [trim_front_join M hinv]
  apply trim_back_join
  intro l hl hlne
  unfold trim_first_line at hl
  cases hdbf : drop_blank_front M with
  | nil => rw [hdbf] at hl; simp at hl
  | cons l0 rest =>
    rw [hdbf] at hl
    rcases List.mem_cons.mp hl with rfl | hmem
    · have hl0 : l0 ∈ M := (List.dropWhile_sublist _).mem (by rw [show M.dropWhile (fun l2 => l2.isEmpty) = drop_blank_front M from rfl, hdbf]; simp)
      have hl0ne : l0 ≠ [] := by
        have := head_dropWhile_not (fun l2 : Str => l2.isEmpty) M l0 rest hdbf
        simpa using this
      rw [rust_trim_trim_start]
      exact hinv l0 hl0 hl0ne
    · have hlm : l ∈ M := (List.dropWhile_sublist _).mem
        (by rw [show M.dropWhile (fun l2 => l2.isEmpty) = drop_blank_front M from rfl, hdbf]; simp [hmem])
      exact hinv l hlm hlne

-- Blank-run bookkeeping for pass 3

theorem isEmpty_true_iff {α : Type} (l : List α) : l.isEmpty = true ↔ l = [] := by
  cases l <;> simp

theorem isEmpty_false_of_ne_nil {α : Type} (l : List α) (h : l ≠ []) :
    l.isEmpty = false := by
  cases l with
  | nil => exact absurd rfl h
  | cons a as => rfl

theorem blank_runs_ok_mono : ∀ (M : List Str) (b b2 : Nat), b ≤ b2 →
    blank_runs_ok M b2 = true → blank_runs_ok M b = true := by
  intro M
  induction M with
  | nil => intro b b2 _ _; rfl
  | cons l rest ih =>
    intro b b2 hle h
    simp only [blank_runs_ok] at h ⊢
    by_cases hl : l.isEmpty = true
    · rw [if_pos hl] at h ⊢
      rw [Bool.and_eq_true] at h ⊢
      obtain ⟨h1, h2⟩ := h
      refine ⟨?_, ih (b + 1) (b2 + 1) (by omega) h2⟩
      simp only [decide_eq_true_eq] at h1 ⊢
      omega
    · rw [if_neg hl] at h ⊢
      exact h

theorem blank_runs_ok_nonblank (M : List Str) (b : Nat)
    (h : blank_runs_ok M b = true) :
    ∀ l ∈ M, l = [] ∨ rust_trim l ≠ [] := by
  induction M generalizing b with
  | nil => intro l hl; simp at hl
  | cons x rest ih =>
    intro l hl
    simp only [blank_runs_ok] at h
    rcases List.mem_cons.mp hl with rfl | h2
    · by_cases hx : l.isEmpty = true
      · exact Or.inl ((isEmpty_true_iff l).mp hx)
      · rw [if_neg hx, Bool.and_eq_true] at h
        right
        intro hc
        have := h.1
        rw [hc] at this
        simp at this
    · by_cases hx : x.isEmpty = true
      · rw [if_pos hx, Bool.and_eq_true] at h
        exact ih (b + 1) h.2 l h2
      · rw [if_neg hx, Bool.and_eq_true] at h
        exact ih 0 h.2 l h2

theorem blank_runs_ok_collapse : ∀ (P : List Str) (b : Nat),
    blank_runs_ok (collapse_lines P b) b = true := by
  intro P
  induction P with
  | nil => intro b; rfl
  | cons l rest ih =>
    intro b
    simp only [collapse_lines]
    by_cases hl : (rust_trim l).isEmpty = true
    · rw [if_pos hl]
      by_cases hb : b + 1 ≤ 2
      · rw [if_pos hb]
        simp only [blank_runs_ok, List.isEmpty_nil, if_pos]
        rw [Bool.and_eq_true]
        refine ⟨by simp only [decide_eq_true_eq]; omega, ih (b + 1)⟩
      · rw [if_neg hb]
        exact blank_runs_ok_mono _ b (b + 1) (by omega) (ih (b + 1))
    · rw [if_neg hl]
      have hl' : (rust_trim l).isEmpty = false := by simpa using hl
      have hlne : l ≠ [] := by
        intro hc
        rw [hc] at hl
        exact hl (by decide)
      simp only [blank_runs_ok]
      rw [if_neg (by simp [isEmpty_false_of_ne_nil l hlne])]
      rw [Bool.and_eq_true]
      exact ⟨by simp [hl'], ih 0⟩

theorem blank_runs_ok_append_left : ∀ (A B : List Str) (b : Nat),
    blank_runs_ok (A ++ B) b = true → blank_runs_ok A b = true := by
  intro A
  induction A with
  | nil => intro B b _; rfl
  | cons l rest ih =>
    intro B b h
    simp only [List.cons_append, blank_runs_ok] at h ⊢
    by_cases hl : l.isEmpty = true
    · rw [if_pos hl] at h ⊢
      rw [Bool.and_eq_true] at h ⊢
      exact ⟨h.1, ih B (b + 1) h.2⟩
    · rw [if_neg hl] at h ⊢
      rw [Bool.and_eq_true] at h ⊢
      exact ⟨h.1, ih B 0 h.2⟩

theorem blank_runs_ok_of_shape : ∀ (M N : List Str) (b : Nat),
    M.map (fun l => l.isEmpty) = N.map (fun l => l.isEmpty) →
    (∀ l ∈ N, l = [] ∨ rust_trim l ≠ []) →
    blank_runs_ok M b = true → blank_runs_ok N b = true := by
  intro M
  induction M with
  | nil =>
    intro N b hsh _ _
    cases N with
    | nil => rfl
    | cons n ns => simp at hsh
  | cons l rest ih =>
    intro N b hsh hinv h
    cases N with
    | nil => simp at hsh
    | cons n ns =>
      simp only [List.map_cons, List.cons.injEq] at hsh
      obtain ⟨h1, h2⟩ := hsh
      simp only [blank_runs_ok] at h ⊢
      by_cases hl : l.isEmpty = true
      · have hn : n.isEmpty = true := by rw [← h1]; exact hl
        rw [if_pos hl] at h
        rw [if_pos hn, Bool.and_eq_true] at *
        exact ⟨h.1, ih ns (b + 1) h2 (fun l2 hl2 => hinv l2 (by simp [hl2])) h.2⟩
      · have hn : ¬ (n.isEmpty = true) := by rw [← h1]; exact hl
        rw [if_neg hl, Bool.and_eq_true] at h
        rw [if_neg hn, Bool.and_eq_true]
        refine ⟨?_, ih ns 0 h2 (fun l2 hl2 => hinv l2 (by simp [hl2])) h.2⟩
        rcases hinv n (by simp) with rfl | hnb
        · exact absurd (by decide : (([] : Str).isEmpty = true)) hn
        · simp [isEmpty_false_of_ne_nil (rust_trim n) hnb]

theorem collapse_lines_fixed : ∀ (M : List Str) (b : Nat),
    blank_runs_ok M b = true → collapse_lines M b = M := by
  intro M
  induction M with
  | nil => intro b _; rfl
  | cons l rest ih =>
    intro b h
    simp only [blank_runs_ok] at h
    simp only [collapse_lines]
    by_cases hl : l.isEmpty = true
    · obtain rfl := (isEmpty_true_iff l).mp hl
      rw [if_pos hl, Bool.and_eq_true] at h
      obtain ⟨hb, hrest⟩ := h
      simp only [decide_eq_true_eq] at hb
      rw [if_pos (by decide : ((rust_trim ([] : Str)).isEmpty = true))]
      rw [if_pos (by omega : b + 1 ≤ 2)]
      rw [ih (b + 1) hrest]
    · rw [if_neg hl, Bool.and_eq_true] at h
      obtain ⟨hnb, hrest⟩ := h
      have hnb' : (rust_trim l).isEmpty = false := by simpa using hnb
      rw [if_neg (by simp [hnb'])]
      rw [ih 0 hrest]

-- Pass 3 flattening and line provenance

theorem collapse_aux_eq_join : ∀ (P : List Str) (b : Nat),
    collapse_aux P b = join_lines (collapse_lines P b) := by
  intro P
  induction P with
  | nil => intro b; rfl
  | cons l rest ih =>
    intro b
    simp only [collapse_aux, collapse_lines]
    by_cases hl : (rust_trim l).isEmpty = true
    · rw [if_pos hl, if_pos hl]
      by_cases hb : b + 1 ≤ 2
      · rw [if_pos hb, if_pos hb, join_lines_cons, ih (b + 1)]
        simp
      · rw [if_neg hb, if_neg hb]
        exact ih (b + 1)
    · rw [if_neg hl, if_neg hl, join_lines_cons, ih 0]
      simp

theorem collapse_lines_mem : ∀ (P : List Str) (b : Nat) (l : Str),
    l ∈ collapse_lines P b → l = [] ∨ (rust_trim l ≠ [] ∧ l ∈ P) := by
  intro P
  induction P with
  | nil => intro b l h; simp [collapse_lines] at h
  | cons x rest ih =>
    intro b l h
    simp only [collapse_lines] at h
    by_cases hx : (rust_trim x).isEmpty = true
    · rw [if_pos hx] at h
      by_cases hb : b + 1 ≤ 2
      · rw [if_pos hb] at h
        rcases List.mem_cons.mp h with rfl | h2
        · exact Or.inl rfl
        · rcases ih (b + 1) l h2 with h3 | ⟨h3, h4⟩
          · exact Or.inl h3
          · exact Or.inr ⟨h3, by simp [h4]⟩
      · rw [if_neg hb] at h
        rcases ih (b + 1) l h with h3 | ⟨h3, h4⟩
        · exact Or.inl h3
        · exact Or.inr ⟨h3, by simp [h4]⟩
    · rw [if_neg hx] at h
      rcases List.mem_cons.mp h with rfl | h2
      · refine Or.inr ⟨?_, by simp⟩
        intro hc
        rw [hc] at hx
        exact hx (by decide)
      · rcases ih 0 l h2 with h3 | ⟨h3, h4⟩
        · exact Or.inl h3
        · exact Or.inr ⟨h3, by simp [h4]⟩

theorem prune_aux_mem (cfg : LlmCleanConfig) :
    ∀ (L run out : List Str) (l : Str),
    l ∈ prune_aux cfg L run out → l ∈ out ∨ l ∈ run ∨ l ∈ L := by
  intro L
  induction L with
  | nil =>
    intro run out l h
    simp only [prune_aux] at h
    rcases List.mem_append.mp h with h1 | h1
    · exact Or.inl h1
    · right; left
      unfold flush_run at h1
      split at h1
      · exact (List.take_sublist _ _).subset h1
      · exact h1
  | cons x rest ih =>
    intro run out l h
    simp only [prune_aux] at h
    by_cases hx : link_only_match x = true
    · rw [if_pos hx] at h
      rcases ih (run ++ [x]) out l h with h1 | h1 | h1
      · exact Or.inl h1
      · rcases List.mem_append.mp h1 with h2 | h2
        · exact Or.inr (Or.inl h2)
        · simp at h2
          subst h2
          exact Or.inr (Or.inr (by simp))
      · exact Or.inr (Or.inr (by simp [h1]))
    · rw [if_neg hx] at h
      rcases ih [] (out ++ flush_run cfg run ++ [x]) l h with h1 | h1 | h1
      · rcases List.mem_append.mp h1 with h2 | h2
        · rcases List.mem_append.mp h2 with h3 | h3
          · exact Or.inl h3
          · right; left
            unfold flush_run at h3
            split at h3
            · exact (List.take_sublist _ _).subset h3
            · exact h3
        · simp at h2
          subst h2
          exact Or.inr (Or.inr (by simp))
      · simp at h1
      · exact Or.inr (Or.inr (by simp [h1]))

theorem split_nl_mem_no_nl : ∀ (s : Str), ∀ l ∈ split_nl s, '\n' ∉ l := by
  intro s
  induction s with
  | nil =>
    intro l hl
    simp only [split_nl, List.mem_singleton] at hl
    simp [hl]
  | cons c rest ih =>
    intro l hl
    by_cases hc : c = '\n'
    · have hred : split_nl (c :: rest) = [] :: split_nl rest := by
        simp only [split_nl]
        rw [if_pos hc]
      rw [hred] at hl
      rcases List.mem_cons.mp hl with rfl | h2
      · simp
      · exact ih l h2
    · cases hsr : split_nl rest with
      | nil => exact absurd hsr (split_nl_ne_nil rest)
      | cons l2 ls =>
        have hred : split_nl (c :: rest) = (c :: l2) :: ls := by
          simp only [split_nl]
          rw [if_neg hc, hsr]
        rw [hred] at hl
        rcases List.mem_cons.mp hl with rfl | h2
        · intro hmem
          rcases List.mem_cons.mp hmem with h3 | h3
          · exact hc h3.symm
          · exact ih l2 (by rw [hsr]; simp) h3
        · exact ih l (by rw [hsr]; simp [h2])

theorem mem_of_getLast?_eq {α : Type} : ∀ (L : List α) (z : α),
    L.getLast? = some z → z ∈ L := by
  intro L
  induction L with
  | nil => intro z h; simp at h
  | cons a as ih =>
    intro z h
    cases as with
    | nil =>
      rw [show ([a] : List α).getLast? = some a from rfl] at h
      have := Option.some.inj h
      simp [← this]
    | cons b bs =>
      rw [List.getLast?_cons_cons] at h
      exact List.mem_cons_of_mem a (ih z h)

theorem rlines_mem_sublist (s : Str) :
    ∀ l ∈ rlines s, ∃ seg ∈ split_nl s, l.Sublist seg := by
  intro l hl
  unfold rlines at hl
  cases hg : (split_nl s).getLast? with
  | none =>
    rw [hg] at hl
    simp [rlines_assemble] at hl
  | some y =>
    rw [hg] at hl
    simp only [rlines_assemble] at hl
    have hy : y ∈ split_nl s := mem_of_getLast?_eq _ y hg
    have hmap : ∀ x, x ∈ (split_nl s).dropLast.map strip_tr_cr →
        ∃ seg ∈ split_nl s, x.Sublist seg := by
      intro x hx
      obtain ⟨seg, hseg, hxseg⟩ := List.mem_map.mp hx
      refine ⟨seg, (List.dropLast_sublist _).subset hseg, ?_⟩
      rw [← hxseg]
      unfold strip_tr_cr
      split
      · exact List.dropLast_sublist seg
      · exact List.Sublist.refl seg
    split at hl
    · exact hmap l hl
    · rcases List.mem_append.mp hl with h1 | h1
      · exact hmap l h1
      · simp at h1
        subst h1
        exact ⟨l, hy, List.Sublist.refl l⟩

theorem rlines_no_nl (s : Str) : ∀ l ∈ rlines s, '\n' ∉ l := by
  intro l hl hmem
  obtain ⟨seg, hseg, hsub⟩ := rlines_mem_sublist s l hl
  exact split_nl_mem_no_nl s seg hseg (hsub.subset hmem)

-- Trim as sublists, and surviving non-whitespace characters

theorem trim_start_sublist (s : Str) : (trim_start s).Sublist s :=
  List.dropWhile_sublist _

theorem trim_end_sublist (s : Str) : (trim_end s).Sublist s := by
  have h : List.Sublist (s.reverse.dropWhile rust_is_ws) s.reverse :=
    List.dropWhile_sublist _
  have h2 := h.reverse
  rw [List.reverse_reverse] at h2
  exact h2

theorem trim_start_split (l : Str) :
    ∃ w, l = w ++ trim_start l ∧ ∀ c ∈ w, rust_is_ws c = true := by
  refine ⟨l.takeWhile rust_is_ws, ?_, ?_⟩
  · exact (List.takeWhile_append_dropWhile _ _).symm
  · intro c hc
    exact List.mem_takeWhile_imp hc

theorem rust_trim_ne_nil_of_mem (l : Str) (c : Char) (hc : c ∈ l)
    (hw : rust_is_ws c = false) : rust_trim l ≠ [] := by
  intro h
  have := (rust_trim_eq_nil_iff l).mp h c hc
  rw [hw] at this
  exact Bool.noConfusion this

theorem mem_trim_end_of_non_ws (l : Str) (c : Char) (hc : c ∈ l)
    (hw : rust_is_ws c = false) : c ∈ trim_end l := by
  obtain ⟨w, hsplit, hall⟩ := trim_end_split l
  rw [hsplit] at hc
  rcases List.mem_append.mp hc with h1 | h1
  · exact h1
  · rw [hall c h1] at hw
    exact Bool.noConfusion hw

theorem nonblank_trim_start (l : Str) (h : rust_trim l ≠ []) :
    rust_trim (trim_start l) ≠ [] := by
  rw [rust_trim_trim_start]
  exact h

theorem nonblank_trim_end (l : Str) (h : rust_trim l ≠ []) :
    rust_trim (trim_end l) ≠ [] := by
  obtain ⟨c, hc, hw⟩ := nonblank_has_non_ws l h
  exact rust_trim_ne_nil_of_mem _ c (mem_trim_end_of_non_ws l c hc hw) hw

theorem trim_end_ne_nil_of_nonblank (l : Str) (h : rust_trim l ≠ []) :
    trim_end l ≠ [] := by
  intro hc
  exact h ((rust_trim_eq_nil_iff l).mpr ((trim_end_eq_nil_iff l).mp hc))

-- Edge processing: membership, nonblank invariants, end lines

theorem drop_blank_front_subset (M : List Str) :
    ∀ l ∈ drop_blank_front M, l ∈ M := by
  intro l hl
  exact (List.dropWhile_sublist _).subset hl

theorem drop_blank_back_subset (M : List Str) :
    ∀ l ∈ drop_blank_back M, l ∈ M := by
  intro l hl
  unfold drop_blank_back at hl
  have h1 := (List.dropWhile_sublist (fun l2 : Str => l2.isEmpty)).subset
    (List.mem_reverse.mp hl)
  exact List.mem_reverse.mp h1

theorem trim_first_line_mem (M : List Str) : ∀ l ∈ trim_first_line M,
    ∃ l2 ∈ M, l.Sublist l2 := by
  intro l hl
  cases M with
  | nil => simp [trim_first_line] at hl
  | cons x rest =>
    simp only [trim_first_line] at hl
    rcases List.mem_cons.mp hl with rfl | h2
    · exact ⟨x, by simp, trim_start_sublist x⟩
    · exact ⟨l, by simp [h2], List.Sublist.refl l⟩

theorem trim_last_line_mem (M : List Str) : ∀ l ∈ trim_last_line M,
    ∃ l2 ∈ M, l.Sublist l2 := by
  induction M using List.reverseRecOn with
  | nil => intro l hl; simp [trim_last_line] at hl
  | append_singleton N z _ =>
    intro l hl
    rw [trim_last_line_concat] at hl
    rcases List.mem_append.mp hl with h1 | h1
    · exact ⟨l, by simp [h1], List.Sublist.refl l⟩
    · simp at h1
      subst h1
      exact ⟨z, by simp, trim_end_sublist z⟩

theorem edge_process_mem (M : List Str) : ∀ l ∈ edge_process M,
    ∃ l2 ∈ M, l.Sublist l2 := by
  intro l hl
  unfold edge_process at hl
  obtain ⟨l1, hl1, hs1⟩ := trim_last_line_mem _ l hl
  have hl1b := drop_blank_back_subset _ l1 hl1
  obtain ⟨l2, hl2, hs2⟩ := trim_first_line_mem _ l1 hl1b
  exact ⟨l2, drop_blank_front_subset M l2 hl2, hs1.trans hs2⟩

theorem inv_trim_first_line (M : List Str)
    (h : ∀ l ∈ M, l = [] ∨ rust_trim l ≠ []) :
    ∀ l ∈ trim_first_line M, l = [] ∨ rust_trim l ≠ [] := by
  intro l hl
  cases M with
  | nil => simp [trim_first_line] at hl
  | cons x rest =>
    simp only [trim_first_line] at hl
    rcases List.mem_cons.mp hl with rfl | h2
    · rcases h x (by simp) with rfl | hnb
      · left; rfl
      · right; exact nonblank_trim_start x hnb
    · exact h l (by simp [h2])

theorem inv_trim_last_line (M : List Str)
    (h : ∀ l ∈ M, l = [] ∨ rust_trim l ≠ []) :
    ∀ l ∈ trim_last_line M, l = [] ∨ rust_trim l ≠ [] := by
  induction M using List.reverseRecOn with
  | nil => intro l hl; simp [trim_last_line] at hl
  | append_singleton N z _ =>
    intro l hl
    rw [trim_last_line_concat] at hl
    rcases List.mem_append.mp hl with h1 | h1
    · exact h l (by simp [h1])
    · simp at h1
      subst h1
      rcases h z (by simp) with rfl | hnb
      · left; rfl
      · right; exact nonblank_trim_end z hnb

theorem inv_edge_process (M : List Str)
    (h : ∀ l ∈ M, l = [] ∨ rust_trim l ≠ []) :
    ∀ l ∈ edge_process M, l = [] ∨ rust_trim l ≠ [] := by
  unfold edge_process
  apply inv_trim_last_line
  intro l hl
  have hl2 := drop_blank_back_subset _ l hl
  exact inv_trim_first_line _
    (fun l3 hl3 => h l3 (drop_blank_front_subset M l3 hl3)) l hl2

theorem drop_blank_back_decomp (M : List Str) :
    ∃ S, M = drop_blank_back M ++ S := by
  refine ⟨(M.reverse.takeWhile (fun l => l.isEmpty)).reverse, ?_⟩
  unfold drop_blank_back
  conv_lhs => rw [← List.reverse_reverse M]
  conv_lhs =>
    rw [← List.takeWhile_append_dropWhile (fun l : Str => l.isEmpty) M.reverse]
  rw [List.reverse_append]

theorem blank_runs_ok_drop_front (M : List Str)
    (h : blank_runs_ok M 0 = true) :
    blank_runs_ok (drop_blank_front M) 0 = true := by
  induction M with
  | nil => exact h
  | cons l rest ih =>
    unfold drop_blank_front
    rw [List.dropWhile_cons]
    by_cases hl : l.isEmpty = true
    · rw [if_pos hl]
      simp only [blank_runs_ok] at h
      rw [if_pos hl, Bool.and_eq_true] at h
      exact ih (blank_runs_ok_mono rest 0 1 (by omega) h.2)
    · rw [if_neg hl]
      exact h

theorem blank_runs_ok_drop_back (M : List Str)
    (h : blank_runs_ok M 0 = true) :
    blank_runs_ok (drop_blank_back M) 0 = true := by
  obtain ⟨S, hS⟩ := drop_blank_back_decomp M
  rw [hS] at h
  exact blank_runs_ok_append_left _ S 0 h

theorem shape_trim_first_line (A : List Str)
    (hA : ∀ l ∈ A, l = [] ∨ rust_trim l ≠ []) :
    (trim_first_line A).map (fun l => l.isEmpty) =
      A.map (fun l => l.isEmpty) := by
  cases A with
  | nil => rfl
  | cons x rest =>
    simp only [trim_first_line, List.map_cons]
    congr 1
    rcases hA x (by simp) with rfl | hnb
    · rfl
    · have h1 : trim_start x ≠ [] := trim_start_ne_nil_of_nonblank x hnb
      have h2 : x ≠ [] := fun hc => hnb (by rw [hc]; rfl)
      rw [isEmpty_false_of_ne_nil _ h1, isEmpty_false_of_ne_nil _ h2]

theorem shape_trim_last_line (N : List Str)
    (hN : ∀ l ∈ N, l = [] ∨ rust_trim l ≠ []) :
    (trim_last_line N).map (fun l => l.isEmpty) =
      N.map (fun l => l.isEmpty) := by
  induction N using List.reverseRecOn with
  | nil => rfl
  | append_singleton T z _ =>
    rw [trim_last_line_concat]
    simp only [List.map_append, List.map_cons, List.map_nil]
    congr 2
    rcases hN z (by simp) with rfl | hnb
    · rfl
    · have h1 : trim_end z ≠ [] := trim_end_ne_nil_of_nonblank z hnb
      have h2 : z ≠ [] := fun hc => hnb (by rw [hc]; rfl)
      rw [isEmpty_false_of_ne_nil _ h1, isEmpty_false_of_ne_nil _ h2]

theorem blank_runs_ok_edge_process (M : List Str)
    (hM : ∀ l ∈ M, l = [] ∨ rust_trim l ≠ [])
    (h : blank_runs_ok M 0 = true) :
    blank_runs_ok (edge_process M) 0 = true := by
  have hD := blank_runs_ok_drop_front M h
  have hinvD : ∀ l ∈ drop_blank_front M, l = [] ∨ rust_trim l ≠ [] :=
    fun l hl => hM l (drop_blank_front_subset M l hl)
  have hinvA := inv_trim_first_line _ hinvD
  have hA : blank_runs_ok (trim_first_line (drop_blank_front M)) 0 = true :=
    blank_runs_ok_of_shape _ _ 0 (shape_trim_first_line _ hinvD).symm hinvA hD
  have hB := blank_runs_ok_drop_back _ hA
  have hinvB : ∀ l ∈ drop_blank_back (trim_first_line (drop_blank_front M)),
      l = [] ∨ rust_trim l ≠ [] :=
    fun l hl => hinvA l (drop_blank_back_subset _ l hl)
  have hinvE := inv_trim_last_line _ hinvB
  exact blank_runs_ok_of_shape _ _ 0 (shape_trim_last_line _ hinvB).symm hinvE hB

-- Fixed ends: when the edge processing is the identity

theorem concat_getLast? {α : Type} (L : List α) (z : α)
    (h : L.getLast? = some z) : L.dropLast ++ [z] = L := by
  have hne : L ≠ [] := by
    intro hc
    rw [hc] at h
    simp at h
  rw [List.getLast?_eq_getLast L hne] at h
  have h2 := Option.some.inj h
  rw [← h2]
  exact List.dropLast_append_getLast hne

theorem drop_blank_back_last (A : List Str) (z : Str)
    (h : (drop_blank_back A).getLast? = some z) : z.isEmpty = false := by
  unfold drop_blank_back at h
  rw [List.getLast?_reverse] at h
  cases hd : A.reverse.dropWhile (fun l => l.isEmpty) with
  | nil =>
    rw [hd] at h
    simp at h
  | cons a as =>
    rw [hd] at h
    have h2 := Option.some.inj h
    rw [← h2]
    exact head_dropWhile_not _ A.reverse a as hd

theorem drop_blank_back_head? (A : List Str) (h : drop_blank_back A ≠ []) :
    (drop_blank_back A).head? = A.head? := by
  obtain ⟨S, hS⟩ := drop_blank_back_decomp A
  conv_rhs => rw [hS]
  cases hB : drop_blank_back A with
  | nil => exact absurd hB h
  | cons b bs => simp

theorem trim_end_head? (s : Str) (h : trim_end s ≠ []) :
    (trim_end s).head? = s.head? := by
  obtain ⟨w, hsplit, _⟩ := trim_end_split s
  conv_rhs => rw [hsplit]
  cases ht : trim_end s with
  | nil => exact absurd ht h
  | cons a as => simp

theorem trim_start_eq_self_of_head (s : Str) (c : Char)
    (h : s.head? = some c) (hw : rust_is_ws c = false) : trim_start s = s := by
  cases s with
  | nil => simp at h
  | cons a as =>
    have h2 : a = c := by simpa using h
    subst h2
    unfold trim_start
    rw [List.dropWhile_cons, if_neg (by simp [hw])]

theorem drop_blank_back_eq_self (M : List Str) (z : Str)
    (h : M.getLast? = some z) (hz : z.isEmpty = false) :
    drop_blank_back M = M := by
  unfold drop_blank_back
  rw [← List.head?_reverse] at h
  cases hrev : M.reverse with
  | nil =>
    rw [hrev] at h
    simp at h
  | cons a as =>
    rw [hrev] at h
    have h2 : a = z := by simpa using h
    subst h2
    rw [List.dropWhile_cons, if_neg (by simp [hz])]
    rw [← hrev, List.reverse_reverse]

theorem edge_process_eq_self (M : List Str) (f z : Str)
    (hf : M.head? = some f) (hfne : f ≠ []) (hfts : trim_start f = f)
    (hz : M.getLast? = some z) (hzne : z ≠ []) (hzte : trim_end z = z) :
    edge_process M = M := by
  unfold edge_process
  have h1 : drop_blank_front M = M := by
    cases M with
    | nil => simp at hf
    | cons a as =>
      have h2 : a = f := by simpa using hf
      subst h2
      unfold drop_blank_front
      rw [List.dropWhile_cons, if_neg (by simp [isEmpty_false_of_ne_nil a hfne])]
  have h2 : trim_first_line M = M := by
    cases M with
    | nil => rfl
    | cons a as =>
      have h3 : a = f := by simpa using hf
      subst h3
      simp only [trim_first_line]
      rw [hfts]
  have h3 : drop_blank_back M = M :=
    drop_blank_back_eq_self M z hz (isEmpty_false_of_ne_nil z hzne)
  have h4 : trim_last_line M = M := by
    have hdec : M.dropLast ++ [z] = M := concat_getLast? M z hz
    rw [← hdec, trim_last_line_concat, hzte]
  rw [h1, h2, h3, h4]

theorem edge_process_end_facts (M : List Str)
    (hM : ∀ l ∈ M, l = [] ∨ rust_trim l ≠ []) (hne : edge_process M ≠ []) :
    (∃ f, (edge_process M).head? = some f ∧ f ≠ [] ∧ trim_start f = f) ∧
    (∃ z, (edge_process M).getLast? = some z ∧ z ≠ [] ∧ trim_end z = z) := by
  cases hD : drop_blank_front M with
  | nil =>
    exfalso
    apply hne
    unfold edge_process
    rw [hD]
    rfl
  | cons l0 R =>
    have hD' : M.dropWhile (fun l => l.isEmpty) = l0 :: R := hD
    have hl0e : l0.isEmpty = false := head_dropWhile_not _ M l0 R hD'
    have hl0M : l0 ∈ M := drop_blank_front_subset M l0 (by rw [hD]; simp)
    have hl0ne : l0 ≠ [] := by
      intro hc
      rw [hc] at hl0e
      simp at hl0e
    have hl0nb : rust_trim l0 ≠ [] := by
      rcases hM l0 hl0M with rfl | h
      · exact absurd rfl hl0ne
      · exact h
    have hA : trim_first_line (drop_blank_front M) = trim_start l0 :: R := by
      rw [hD]
      rfl
    have hEP : edge_process M =
        trim_last_line (drop_blank_back (trim_start l0 :: R)) := by
      unfold edge_process
      rw [hA]
    cases hBg : (drop_blank_back (trim_start l0 :: R)).getLast? with
    | none =>
      exfalso
      apply hne
      rw [hEP, List.getLast?_eq_none_iff.mp hBg]
      rfl
    | some zB =>
      have hzBe : zB.isEmpty = false := drop_blank_back_last _ zB hBg
      have hzBmem : zB ∈ trim_start l0 :: R :=
        drop_blank_back_subset _ zB (mem_of_getLast?_eq _ zB hBg)
      have hzBne : zB ≠ [] := by
        intro hc
        rw [hc] at hzBe
        simp at hzBe
      have hzBnb : rust_trim zB ≠ [] := by
        rcases List.mem_cons.mp hzBmem with rfl | h2
        · exact nonblank_trim_start l0 hl0nb
        · rcases hM zB (drop_blank_front_subset M zB
            (by rw [hD]; simp [h2])) with rfl | h3
          · exact absurd rfl hzBne
          · exact h3
      have hBne : drop_blank_back (trim_start l0 :: R) ≠ [] := by
        intro hc
        rw [hc] at hBg
        simp at hBg
      have hBdecomp :
          (drop_blank_back (trim_start l0 :: R)).dropLast ++ [zB] =
            drop_blank_back (trim_start l0 :: R) :=
        concat_getLast? _ zB hBg
      have hM2 : edge_process M =
          (drop_blank_back (trim_start l0 :: R)).dropLast ++ [trim_end zB] := by
        rw [hEP]
        conv_lhs => rw [← hBdecomp]
        rw [trim_last_line_concat]
      have hzside : ∃ z, (edge_process M).getLast? = some z ∧ z ≠ [] ∧
          trim_end z = z := by
        refine ⟨trim_end zB, ?_, trim_end_ne_nil_of_nonblank zB hzBnb,
          trim_end_idem zB⟩
        rw [hM2]
        exact List.getLast?_concat _
      have hBhead : (drop_blank_back (trim_start l0 :: R)).head? =
          some (trim_start l0) := by
        rw [drop_blank_back_head? _ hBne]
        rfl
      cases hNL : (drop_blank_back (trim_start l0 :: R)).dropLast with
      | nil =>
        have hBsing : drop_blank_back (trim_start l0 :: R) = [zB] := by
          conv_lhs => rw [← hBdecomp]
          rw [hNL]
          simp
        have hzBeq : zB = trim_start l0 := by
          have h5 := hBhead
          rw [hBsing] at h5
          simpa using h5
        have hf : (edge_process M).head? = some (trim_end zB) := by
          rw [hM2, hNL]
          rfl
        have hfne : trim_end zB ≠ [] := trim_end_ne_nil_of_nonblank zB hzBnb
        have hfts : trim_start (trim_end zB) = trim_end zB := by
          cases hts : trim_start l0 with
          | nil => exact absurd hts (trim_start_ne_nil_of_nonblank l0 hl0nb)
          | cons c t =>
            have hcw : rust_is_ws c = false :=
              head_dropWhile_not rust_is_ws l0 c t hts
            have hhead : (trim_end zB).head? = some c := by
              rw [trim_end_head? zB hfne, hzBeq, hts]
              rfl
            exact trim_start_eq_self_of_head _ c hhead hcw
        exact ⟨⟨trim_end zB, hf, hfne, hfts⟩, hzside⟩
      | cons n ns =>
        have hf : (edge_process M).head? = some n := by
          rw [hM2, hNL]
          rfl
        have hneq : n = trim_start l0 := by
          have h5 := hBhead
          rw [← hBdecomp, hNL] at h5
          simpa using h5
        subst hneq
        exact ⟨⟨trim_start l0, hf, trim_start_ne_nil_of_nonblank l0 hl0nb,
          trim_start_idem l0⟩, hzside⟩

theorem edge_process_idem (M : List Str)
    (hM : ∀ l ∈ M, l = [] ∨ rust_trim l ≠ []) :
    edge_process (edge_process M) = edge_process M := by
  by_cases hne : edge_process M = []
  · rw [hne]
    rfl
  · obtain ⟨⟨f, hf, hfne, hfts⟩, ⟨z, hz, hzne, hzte⟩⟩ :=
      edge_process_end_facts M hM hne
    exact edge_process_eq_self _ f z hf hfne hfts hz hzne hzte

-- Odds and ends for the idempotence assembly

theorem interc_mem_chars (M : List Str) (l : Str) (c : Char) :
    l ∈ M → c ∈ l → c ∈ interc M := by
  induction M with
  | nil => intro hl _; simp at hl
  | cons x rest ih =>
    intro hl hc
    cases rest with
    | nil =>
      simp at hl
      subst hl
      exact hc
    | cons y ys =>
      have hint : interc (x :: y :: ys) = x ++ '\n' :: interc (y :: ys) := rfl
      rw [hint]
      rcases List.mem_cons.mp hl with rfl | h2
      · exact List.mem_append.mpr (Or.inl hc)
      · exact List.mem_append.mpr (Or.inr (List.mem_cons_of_mem _ (ih h2 hc)))

theorem hard_cap_eq_of_le (cfg : LlmCleanConfig) (s : Str)
    (h : (hard_cap cfg s).length ≤ cfg.max_md_chars) : hard_cap cfg s = s := by
  by_cases hc : cfg.max_md_chars < s.length
  · exfalso
    unfold hard_cap at h
    rw [if_pos hc, List.length_append, truncate_eq_take, List.length_take] at h
    have hm : trunc_marker.length = 20 := by decide
    rw [hm] at h
    have hmin : min cfg.max_md_chars s.length = cfg.max_md_chars :=
      Nat.min_eq_left (Nat.le_of_lt hc)
    omega
  · unfold hard_cap
    rw [if_neg hc]

theorem prune_fixed_edge_process (cfg : LlmCleanConfig) (M : List Str)
    (h : prune_link_farms cfg M = M) :
    prune_link_farms cfg (edge_process M) = edge_process M := by
  unfold edge_process
  have h1 := prune_fixed_drop_front cfg M h
  have h2 := prune_fixed_of_same_shape cfg (drop_blank_front M).length
    (drop_blank_front M) (trim_first_line (drop_blank_front M)) (le_refl _)
    (map_link_trim_first _).symm h1
  have h3 := prune_fixed_drop_back cfg
    (trim_first_line (drop_blank_front M)).length _ (le_refl _) h2
  exact prune_fixed_of_same_shape cfg
    (drop_blank_back (trim_first_line (drop_blank_front M))).length
    _ _ (le_refl _) (map_link_trim_last _).symm h3

theorem clean_nil (cfg : LlmCleanConfig) :
    clean_markdown_for_llm [] cfg = [] := by
  show hard_cap cfg (rust_trim (collapse_aux (prune_aux cfg
    ((rlines (data_img_replace (remove_nulls (replace_crlf [])))).filter
      (fun l => l.length ≤ cfg.max_line_len)) [] []) 0)) = []
  rw [show (rlines (data_img_replace (remove_nulls (replace_crlf [])))) =
    ([] : List Str) from rfl]
  rw [List.filter_nil]
  rw [show prune_aux cfg [] [] [] = [] ++ flush_run cfg [] from rfl,
    flush_run_nil]
  rw [show (([] : List Str) ++ []) = ([] : List Str) from rfl]
  rw [show collapse_aux [] 0 = ([] : Str) from rfl]
  rw [show rust_trim [] = ([] : Str) from rfl]
  unfold hard_cap
  rw [if_neg (by simp)]

/-- Core of the amended idempotence: a string assembled by passes 2-4 of the
cleaner from good lines, left untouched by the final cap and free of carriage
returns, NULs and data images, is a fixed point of the whole cleaner. -/
theorem clean_fixed_core (cfg : LlmCleanConfig) (F : List Str)
    (hF : ∀ l ∈ F, '\n' ∉ l ∧ l.length ≤ cfg.max_line_len)
    (O : Str)
    (hO : O = rust_trim (collapse_aux (prune_aux cfg F [] []) 0))
    (hcap : O.length ≤ cfg.max_md_chars)
    (hcr : '\r' ∉ O) (hnul : '\x00' ∉ O) (hdi : has_data_img O = false) :
    clean_markdown_for_llm O cfg = O := by
  set P := prune_aux cfg F [] [] with hPdef
  set M1 := collapse_lines P 0 with hM1def
  set M2 := edge_process M1 with hM2def
  have hPfix : prune_link_farms cfg P = P := by
    rw [hPdef]
    exact prune_idem cfg F.length F (le_refl _)
  have hM1mem : ∀ l ∈ M1, l = [] ∨ (rust_trim l ≠ [] ∧ l ∈ P) := by
    rw [hM1def]
    exact collapse_lines_mem P 0
  have hM1inv : ∀ l ∈ M1, l = [] ∨ rust_trim l ≠ [] :=
    fun l hl => (hM1mem l hl).elim Or.inl (fun h => Or.inr h.1)
  have hPF : ∀ l ∈ P, l ∈ F := by
    intro l hl
    rcases prune_aux_mem cfg F [] [] l hl with h | h | h
    · simp at h
    · simp at h
    · exact h
  have hOi : O = interc M2 := by
    rw [hO, collapse_aux_eq_join P 0, ← hM1def,
      rust_trim_join M1 (fun l hl hlne => (hM1inv l hl).resolve_left hlne),
      ← hM2def]
  have hM2sub : ∀ l ∈ M2, ∃ l2 ∈ M1, l.Sublist l2 := by
    rw [hM2def]
    exact edge_process_mem M1
  have hM2nl : ∀ l ∈ M2, '\n' ∉ l := by
    intro l hl hmem
    obtain ⟨l2, hl2, hsub⟩ := hM2sub l hl
    rcases hM1mem l2 hl2 with rfl | ⟨_, hP2⟩
    · have h0 := hsub.subset hmem
      simp at h0
    · exact (hF l2 (hPF l2 hP2)).1 (hsub.subset hmem)
  have hM2len : ∀ l ∈ M2, l.length ≤ cfg.max_line_len := by
    intro l hl
    obtain ⟨l2, hl2, hsub⟩ := hM2sub l hl
    rcases hM1mem l2 hl2 with rfl | ⟨_, hP2⟩
    · have h0 := hsub.length_le
      simp at h0
      subst h0
      simp
    · exact le_trans hsub.length_le (hF l2 (hPF l2 hP2)).2
  have hM2inv : ∀ l ∈ M2, l = [] ∨ rust_trim l ≠ [] := by
    rw [hM2def]
    exact inv_edge_process M1 hM1inv
  have hcrI : '\r' ∉ interc M2 := by
    rw [← hOi]
    exact hcr
  have hM2cr : ∀ l ∈ M2, '\r' ∉ l :=
    fun l hl hmem => hcrI (interc_mem_chars M2 l '\r' hl hmem)
  have hM2crlast : ∀ l ∈ M2, l.getLast? ≠ some '\r' :=
    fun l hl hc => hM2cr l hl (mem_of_getLast?_eq l '\r' hc)
  have hM2last : ∀ x, M2.getLast? = some x → x ≠ [] := by
    intro x hx
    have hne : edge_process M1 ≠ [] := by
      rw [← hM2def]
      intro hc
      rw [hc] at hx
      simp at hx
    obtain ⟨_, ⟨z, hz, hzne, _⟩⟩ := edge_process_end_facts M1 hM1inv hne
    rw [← hM2def, hx] at hz
    obtain rfl : x = z := Option.some.inj hz
    exact hzne
  have hok : blank_runs_ok M2 0 = true := by
    rw [hM2def]
    exact blank_runs_ok_edge_process M1 hM1inv
      (by rw [hM1def]; exact blank_runs_ok_collapse P 0)
  have hprune2 : prune_link_farms cfg M2 = M2 := by
    rw [hM2def]
    apply prune_fixed_edge_process
    rw [hM1def]
    exact collapse_preserves_prune_fixed cfg P.length P 0 (le_refl _) hPfix
  have hcoll2 : collapse_lines M2 0 = M2 := collapse_lines_fixed M2 0 hok
  have hedge2 : edge_process M2 = M2 := by
    rw [hM2def]
    exact edge_process_idem M1 hM1inv
  rw [show clean_markdown_for_llm O cfg = hard_cap cfg (rust_trim (collapse_aux
    (prune_aux cfg ((rlines (data_img_replace (remove_nulls
      (replace_crlf O)))).filter (fun l => l.length ≤ cfg.max_line_len))
      [] []) 0)) from rfl]
  rw [replace_crlf_id O hcr, remove_nulls_id O hnul, data_img_replace_id O hdi]
  rw [show rlines O = rlines (interc M2) from by rw [hOi]]
  rw [rlines_interc M2 hM2nl hM2crlast hM2last]
  rw [List.filter_eq_self.mpr (fun l hl => decide_eq_true (hM2len l hl))]
  rw [show prune_aux cfg M2 [] [] = prune_link_farms cfg M2 from rfl, hprune2]
  rw [collapse_aux_eq_join M2 0, hcoll2]
  rw [rust_trim_join M2 (fun l hl hlne => (hM2inv l hl).resolve_left hlne),
    hedge2]
  rw [← hOi]
  unfold hard_cap
  rw [if_neg (show ¬ cfg.max_md_chars < O.length from by omega)]

/-- C2 (amended): the Markdown cleaner is not idempotent in general (see
C2_counterexample), but it is idempotent on every output it did not hard-cap
and that is free of the artifacts the early passes rewrite: whenever the
cleaned text has at most max_md_chars characters and contains no carriage
return, no NUL and no data-image blob, a second application of
clean_markdown_for_llm returns it unchanged. -/
theorem C2_clean_idempotent_when_stable (md : Str) (cfg : LlmCleanConfig)
    (h1 : (clean_markdown_for_llm md cfg).length ≤ cfg.max_md_chars)
    (h2 : '\r' ∉ clean_markdown_for_llm md cfg)
    (h3 : '\x00' ∉ clean_markdown_for_llm md cfg)
    (h4 : has_data_img (clean_markdown_for_llm md cfg) = false) :
    clean_markdown_for_llm (clean_markdown_for_llm md cfg) cfg =
      clean_markdown_for_llm md cfg := by
  have hT : clean_markdown_for_llm md cfg = rust_trim (collapse_aux
      (prune_aux cfg ((rlines (data_img_replace (remove_nulls
        (replace_crlf md)))).filter (fun l => l.length ≤ cfg.max_line_len))
        [] []) 0) :=
    hard_cap_eq_of_le cfg _ h1
  exact clean_fixed_core cfg _
    (fun l hl => ⟨rlines_no_nl _ l (List.mem_of_mem_filter hl),
      by simpa using List.of_mem_filter hl⟩)
    _ hT h1 h2 h3 h4

/-- C2 witness: the amended idempotence applied at a concrete input whose
cleaned form is short, CR-free, NUL-free and data-image-free. -/
theorem C2_witness :
    clean_markdown_for_llm
        (clean_markdown_for_llm ("hello\nworld".toList) LlmCleanConfig.default)
        LlmCleanConfig.default =
      clean_markdown_for_llm ("hello\nworld".toList) LlmCleanConfig.default :=
  C2_clean_idempotent_when_stable ("hello\nworld".toList) LlmCleanConfig.default
    (by decide) (by decide) (by decide) (by decide)
